import Mathlib

/-!
Verification of the LR state construction core (lr1/build) and the
interface consumed by the recursive-ascent emitter (lr1/ascent).

The data model and the algorithms are translated from
src/lalrpop-snap/src/lr1/build/mod.rs.  Components of the repository that
the build module uses but whose sources are not available here
(grammar/repr, lr1/core, lr1/first, lr1/lookahead, kernel_set,
collections) are modelled from the specification; each such definition is
marked with a doc comment starting with "Modelled from the spec:".

Terminals and nonterminals are encoded as natural numbers.  Tokens (the
elements of LR(1) lookahead sets) are encoded as naturals with 0 standing
for EOF and t+1 for the terminal t.  The Rust sources loop until a
fixed point is reached; here every such loop takes an explicit fuel
argument, and we prove that the fuel the top-level definitions supply is
enough for the loop to reach its fixed point.
-/

namespace LrBuild

/-- A grammar symbol: terminal or nonterminal (grammar/repr; modelled
from the spec: tagged variant with disjoint namespaces and total order). -/
inductive Symbol : Type where
  | Terminal (t : Nat)
  | Nonterminal (n : Nat)
deriving DecidableEq

/-- Modelled from the spec: a production `nonterminal -> symbols` with an
opaque action identifier (grammar/repr is not among the sources). -/
structure Production : Type where
  nonterminal : Nat
  symbols : List Symbol
  action : Nat
deriving DecidableEq

/-- Modelled from the spec: the immutable grammar, a collection of
productions grouped by nonterminal. -/
structure Grammar : Type where
  productions : List Production
deriving DecidableEq

/-- Modelled from the spec: `productions_for(nt)` returns the productions
of the nonterminal `nt`, in grammar order. -/
def Grammar.productions_for (g : Grammar) (nt : Nat) : List Production :=
  g.productions.filter (fun p => p.nonterminal == nt)

/-- An LR item: a production, a dot position `index`, and a lookahead
payload of the policy type `L` (lr1/core; modelled from the spec). -/
structure Item (L : Type) : Type where
  production : Production
  index : Nat
  lookahead : L
deriving DecidableEq

/-- The unit lookahead of the LR(0) policy (lr1/lookahead's `Nil`). -/
inductive Nil : Type where
  | mk
deriving DecidableEq

/-- Tokens are encoded naturals (0 = EOF, t+1 = terminal t); a token set
is kept as a strictly increasing list. -/
abbrev TokenSet : Type := List Nat

/-- Modelled from the spec: the token set containing exactly EOF. -/
def TokenSet.eof : TokenSet := [0]

/-! ### Total order machinery

The Rust types derive `Ord`; items are compared lexicographically by
(production, index, lookahead).  We realize this with `Ordering`-valued
comparators built from an injective encoding into `List Nat`. -/

/-- Injective encoding of a symbol into a natural number. -/
def symEnc : Symbol → Nat
  | Symbol.Terminal t => 2 * t
  | Symbol.Nonterminal n => 2 * n + 1

/-- Injective encoding of a production into a list of naturals. -/
def prodEnc (p : Production) : List Nat :=
  p.nonterminal :: p.action :: p.symbols.map symEnc

/-- Lexicographic comparison of lists of naturals. -/
def cmpNatList : List Nat → List Nat → Ordering
  | [], [] => Ordering.eq
  | [], _ :: _ => Ordering.lt
  | _ :: _, [] => Ordering.gt
  | a :: as, b :: bs => (compare a b).then (cmpNatList as bs)

/-- Comparison of productions, via their encoding. -/
def cmpProd (a b : Production) : Ordering :=
  cmpNatList (prodEnc a) (prodEnc b)

/-- Comparison of items: lexicographic by production, index, lookahead
(the lookahead is compared through the policy's encoding `encL`). -/
def cmpItem {L : Type} (encL : L → List Nat) (a b : Item L) : Ordering :=
  (cmpProd a.production b.production).then
    ((compare a.index b.index).then (cmpNatList (encL a.lookahead) (encL b.lookahead)))

/-- Boolean "less or equal" on items, used for sorting. -/
def itemLeB {L : Type} (encL : L → List Nat) (a b : Item L) : Bool :=
  cmpItem encL a b ≠ Ordering.gt

/-! ### Token sets and FIRST sets -/

/-- Insert a token into a strictly increasing token list. -/
def tsInsert (x : Nat) : List Nat → List Nat
  | [] => [x]
  | y :: ys =>
    if x < y then x :: y :: ys
    else if x = y then y :: ys
    else y :: tsInsert x ys

/-- Union of token sets: insert every element of `b` into `a`. -/
def tsUnion (a b : List Nat) : List Nat :=
  b.foldl (fun acc y => tsInsert y acc) a

/-- Normalize an arbitrary token list into a strictly increasing one. -/
def tsNorm (l : List Nat) : List Nat := tsUnion [] l

/-- Do two token sets share an element? -/
def tsIntersects (a b : TokenSet) : Bool := a.any (fun x => b.contains x)

/-- Modelled from the spec: per-nonterminal FIRST table and nullability,
fixed points of the standard definitions (lr1/first is not among the
sources). -/
structure FirstSets : Type where
  nullable : List Nat
  table : List (Nat × List Nat)
deriving DecidableEq

def FirstSets.is_nullable (fs : FirstSets) (n : Nat) : Bool :=
  fs.nullable.contains n

def FirstSets.first_of (fs : FirstSets) (n : Nat) : List Nat :=
  (fs.table.lookup n).getD []

/-- Worker for `first1`: walk the symbol sequence left to right with an
accumulator, per the spec's rules. -/
def first1Go (fs : FirstSets) (L : TokenSet) : List Symbol → List Nat → List Nat
  | [], R => tsUnion R L
  | Symbol.Terminal t :: _, R => tsInsert (t + 1) R
  | Symbol.Nonterminal n :: rest, R =>
    if fs.is_nullable n then first1Go fs L rest (tsUnion R (fs.first_of n))
    else tsUnion R (fs.first_of n)

/-- Modelled from the spec: `first1(beta, L)` accumulates the terminals
that can begin a string derived from `beta`, and unions `L` when all of
`beta` is nullable. -/
def FirstSets.first1 (fs : FirstSets) (β : List Symbol) (L : TokenSet) : TokenSet :=
  first1Go fs L β []

/-- The token encoding of a terminal symbol. -/
def termTok : Symbol → Option Nat
  | Symbol.Terminal t => some (t + 1)
  | Symbol.Nonterminal _ => none

/-- EOF together with every terminal token occurring in the grammar. -/
def grammarTokens (g : Grammar) : List Nat :=
  0 :: g.productions.flatMap (fun p => p.symbols.filterMap termTok)

/-- All tokens stored in a FIRST table. -/
def tableTokens (fs : FirstSets) : List Nat :=
  fs.table.flatMap (fun e => e.2)

/-- Is a symbol nullable under the current approximation? -/
def nullableSym (nullable : List Nat) : Symbol → Bool
  | Symbol.Terminal _ => false
  | Symbol.Nonterminal n => nullable.contains n

/-- Replace (or append) the entry of `k` in an association table. -/
def updateEntry (tbl : List (Nat × List Nat)) (k : Nat) (v : List Nat) :
    List (Nat × List Nat) :=
  if tbl.any (fun e => e.1 == k) then
    tbl.map (fun e => if e.1 == k then (k, v) else e)
  else tbl ++ [(k, v)]

/-- One worklist pass of the FIRST/nullable fixed-point computation. -/
def FirstSets.step (g : Grammar) (fs : FirstSets) : FirstSets :=
  let nb := g.productions.foldl
    (fun acc p =>
      if p.symbols.all (nullableSym acc) && !acc.contains p.nonterminal then
        acc ++ [p.nonterminal]
      else acc)
    fs.nullable
  let tbl := g.productions.foldl
    (fun acc p =>
      let cur := (acc.lookup p.nonterminal).getD []
      let grown := first1Go { nullable := nb, table := acc } [] p.symbols []
      updateEntry acc p.nonterminal (tsUnion cur grown))
    fs.table
  ⟨nb, tbl⟩

def fsIter (g : Grammar) : Nat → FirstSets → FirstSets
  | 0, fs => fs
  | n + 1, fs => fsIter g n (FirstSets.step g fs)

/-- Modelled from the spec: FIRST sets are computed once per build by
iterating the worklist pass until no set can grow. -/
def FirstSets.new (g : Grammar) : FirstSets :=
  fsIter g (g.productions.length * ((grammarTokens g).length + 2) + 1) ⟨[], []⟩

/-! ### Item operations (lr1/core; modelled from the spec) -/

/-- Modelled from the spec: if the dot is in front of a symbol, return
that symbol and the item with the dot moved one step right. -/
def Item.shifted_item {L : Type} (it : Item L) : Option (Symbol × Item L) :=
  match it.production.symbols[it.index]? with
  | some s => some (s, ⟨it.production, it.index + 1, it.lookahead⟩)
  | none => none

/-- Modelled from the spec: the symbol after the dot together with the
remainder strictly after it. -/
def Item.shift_symbol {L : Type} (it : Item L) : Option (Symbol × List Symbol) :=
  match it.production.symbols[it.index]? with
  | some s => some (s, it.production.symbols.drop (it.index + 1))
  | none => none

/-- Modelled from the spec: an item is reducible when the dot is at the
end of the production. -/
def Item.can_reduce {L : Type} (it : Item L) : Bool :=
  it.index == it.production.symbols.length

/-- Modelled from the spec: the LR(0) view of a dotted production, the
merging key during successor partitioning. -/
def Item.lr0 (p : Production) (i : Nat) : Item Nil := ⟨p, i, Nil.mk⟩

/-- Modelled from the spec: re-attach a lookahead to an LR(0) item. -/
def Item.with_lookahead {L : Type} (it : Item Nil) (la : L) : Item L :=
  ⟨it.production, it.index, la⟩

/-- The symbols consumed so far by an item: the prefix of the production
before the dot. -/
def itemConsumed {L : Type} (it : Item L) : List Symbol :=
  it.production.symbols.take it.index

/-! ### States, conflicts and the lookahead policy -/

/-- An automaton state (lr1/core; modelled from the spec): item closure,
shift map, goto map and reduction list.  Maps are kept as association
lists in insertion order. -/
structure State (L : Type) : Type where
  index : Nat
  items : List (Item L)
  shifts : List (Nat × Nat)
  reductions : List (L × Production)
  gotos : List (Nat × Nat)
deriving DecidableEq

/-- Modelled from the spec: the ambiguous action of a conflict. -/
inductive ConflictAction : Type where
  | Shift (term : Nat)
  | Reduce (production : Production)
deriving DecidableEq

/-- Modelled from the spec: a conflict names the state, the reducible
item, and the competing action. -/
structure Conflict (L : Type) : Type where
  state : Nat
  item : Item L
  action : ConflictAction
deriving DecidableEq

/-- The builder context, mirroring the Rust `LR` struct. -/
structure LR (L : Type) : Type where
  grammar : Grammar
  first_sets : FirstSets
  start_nt : Nat
  start_lookahead : L
  permit_early_stop : Bool

/-- `LR::items`: one item per production of `id`, at dot position
`index`, all carrying the same lookahead. -/
def LR.items {L : Type} (lr : LR L) (id : Nat) (index : Nat) (lookahead : L) :
    List (Item L) :=
  (lr.grammar.productions_for id).map (fun p => ⟨p, index, lookahead⟩)

/-- The lookahead policy (the `LookaheadBuild` trait together with the
parts of `Lookahead` the builder uses; the trait methods `epsilon_moves`
and `conflicts` are modelled from the source and the spec, and `tcFuel`
supplies the fuel bound under which the closure loop provably reaches its
fixed point). -/
structure LookaheadBuild (L : Type) : Type where
  encL : L → List Nat
  defaultL : L
  mergeL : L → L → L
  epsilon_moves : LR L → Nat → List Symbol → L → List (Item L)
  conflicts : State L → List (Conflict L)
  tcFuel : LR L → List (Item L) → Nat

/-- The epsilon moves requested for one item during closure: nothing for
reducible items or items before a terminal, the policy's moves for items
before a nonterminal. -/
def epsOf {L : Type} (lb : LookaheadBuild L) (lr : LR L) (it : Item L) :
    List (Item L) :=
  match it.shift_symbol with
  | none => []
  | some (Symbol.Terminal _, _) => []
  | some (Symbol.Nonterminal nt, remainder) => lb.epsilon_moves lr nt remainder it.lookahead

/-! ### Transitive closure -/

/-- Keep only the elements not yet seen, mirroring the `Set::insert`
filter of the Rust closure loop (the set equals the elements of the
growing item vector). -/
def filterNew {α : Type} [DecidableEq α] (seen : List α) : List α → List α
  | [] => []
  | x :: xs => if x ∈ seen then filterNew seen xs else x :: filterNew (x :: seen) xs

/-- The growing-cursor loop of `transitive_closure`: process the items
from `counter` on, append the new epsilon moves, and repeat; `fuel`
bounds the number of passes. -/
def closureLoop {L : Type} [DecidableEq L] (eps : Item L → List (Item L)) :
    Nat → List (Item L) → Nat → List (Item L)
  | 0, items, _ => items
  | fuel + 1, items, counter =>
    if counter < items.length then
      closureLoop eps fuel
        (items ++ filterNew items ((items.drop counter).flatMap eps)) items.length
    else items

/-- Remove adjacent duplicates, as `Vec::dedup` does. -/
def dedupAdj {α : Type} [DecidableEq α] : List α → List α
  | [] => []
  | [a] => [a]
  | a :: b :: rest => if a = b then dedupAdj (b :: rest) else a :: dedupAdj (b :: rest)

/-- Insert an element in front of the first list element it is `le` to. -/
def insertSorted {α : Type} (le : α → α → Bool) (x : α) : List α → List α
  | [] => [x]
  | y :: ys => if le x y then x :: y :: ys else y :: insertSorted le x ys

/-- Sorting by a boolean total order (`Vec::sort`; since ties in the item
order only arise between equal items, any comparison sort produces this
list). -/
def sortByLe {α : Type} (le : α → α → Bool) (l : List α) : List α :=
  l.foldr (insertSorted le) []

/-- `transitive_closure`: expand the seed with epsilon moves to a fixed
point, then sort and de-duplicate. -/
def transitive_closure {L : Type} [DecidableEq L] (lb : LookaheadBuild L)
    (lr : LR L) (seed : List (Item L)) : List (Item L) :=
  dedupAdj (sortByLe (itemLeB lb.encL) (closureLoop (epsOf lb lr) (lb.tcFuel lr seed) seed 0))

/-! ### Successor partitioning (the two-level multimap) -/

/-- Comparison of LR(0) items (production, then dot position). -/
def cmpLR0 (a b : Item Nil) : Ordering := cmpItem (fun _ => []) a b

/-- Modelled from the spec: insert into the inner multimap keyed by the
LR(0) item; an existing entry merges the lookahead, a fresh entry pushes
it into the policy's empty collection.  Keys are kept in item order. -/
def innerInsert {L : Type} (lb : LookaheadBuild L) (k : Item Nil) (la : L) :
    List (Item Nil × L) → List (Item Nil × L)
  | [] => [(k, lb.mergeL lb.defaultL la)]
  | (k', v') :: rest =>
    match cmpLR0 k k' with
    | Ordering.lt => (k, lb.mergeL lb.defaultL la) :: (k', v') :: rest
    | Ordering.eq => (k', lb.mergeL v' la) :: rest
    | Ordering.gt => (k', v') :: innerInsert lb k la rest

/-- Comparison of symbols, via their encoding. -/
def cmpSym (a b : Symbol) : Ordering := compare (symEnc a) (symEnc b)

/-- Modelled from the spec: insert into the outer multimap keyed by the
transition symbol. -/
def outerInsert {L : Type} (lb : LookaheadBuild L) (sym : Symbol) (k : Item Nil)
    (la : L) : List (Symbol × List (Item Nil × L)) → List (Symbol × List (Item Nil × L))
  | [] => [(sym, innerInsert lb k la [])]
  | (s', m) :: rest =>
    match cmpSym sym s' with
    | Ordering.lt => (sym, innerInsert lb k la []) :: (s', m) :: rest
    | Ordering.eq => (s', innerInsert lb k la m) :: rest
    | Ordering.gt => (s', m) :: outerInsert lb sym k la rest

/-- The grouping of the shiftable items of a closed item set, by
transition symbol and then by LR(0) core, with lookaheads merged. -/
def transitionsOf {L : Type} (lb : LookaheadBuild L) (items : List (Item L)) :
    List (Symbol × List (Item Nil × L)) :=
  (items.filterMap Item.shifted_item).foldl
    (fun mm si => outerInsert lb si.1 (Item.lr0 si.2.production si.2.index) si.2.lookahead mm)
    []

/-- The shifted kernel formed from one symbol's group: re-attach the
merged lookahead to each LR(0) core. -/
def kernelOfGroup {L : Type} (m : List (Item Nil × L)) : List (Item L) :=
  m.map (fun kv => Item.with_lookahead kv.1 kv.2)

/-! ### The kernel registry (kernel_set; modelled from the spec) -/

/-- Modelled from the spec: the kernel registry holds the kernels in
registration order (the map kernel -> index is positional) and a cursor
into the FIFO queue of kernels not yet expanded. -/
structure KernelSet (L : Type) : Type where
  kernels : List (List (Item L))
  dequeued : Nat

/-- Position of a kernel in the registration list, if present. -/
def findKernel {L : Type} [DecidableEq L] (k : List (Item L)) :
    List (List (Item L)) → Option Nat
  | [] => none
  | k' :: rest => if k' = k then some 0 else (findKernel k rest).map (· + 1)

/-- Modelled from the spec: `add_state` returns the existing index of an
already-registered kernel, otherwise assigns the next dense index and
enqueues the kernel. -/
def KernelSet.add_state {L : Type} [DecidableEq L] (ks : KernelSet L)
    (k : List (Item L)) : Nat × KernelSet L :=
  match findKernel k ks.kernels with
  | some i => (i, ks)
  | none => (ks.kernels.length, ⟨ks.kernels ++ [k], ks.dequeued⟩)

/-- Modelled from the spec: dequeue the next pending kernel, or signal
exhaustion. -/
def KernelSet.next {L : Type} (ks : KernelSet L) :
    Option (List (Item L) × KernelSet L) :=
  if h : ks.dequeued < ks.kernels.length then
    some (ks.kernels.get ⟨ks.dequeued, h⟩, { ks with dequeued := ks.dequeued + 1 })
  else none

/-- The condition `Kernel::start` asserts: every item has `index == 0`. -/
def startKernelCheck {L : Type} (items : List (Item L)) : Bool :=
  items.all (fun it => it.index == 0)

/-- The condition `Kernel::shifted` asserts: every item has `index > 0`. -/
def shiftedKernelCheck {L : Type} (items : List (Item L)) : Bool :=
  items.all (fun it => it.index != 0)

/-! ### The main build loop -/

/-- Walk one state's transition groups: register each shifted kernel and
record the returned index in the shift or goto map. -/
def addTransitions {L : Type} [DecidableEq L] :
    KernelSet L → State L → List (Symbol × List (Item Nil × L)) → State L × KernelSet L
  | ks, st, [] => (st, ks)
  | ks, st, (sym, m) :: rest =>
    let r := ks.add_state (kernelOfGroup m)
    match sym with
    | Symbol.Terminal t =>
      addTransitions r.2 { st with shifts := st.shifts ++ [(t, r.1)] } rest
    | Symbol.Nonterminal n =>
      addTransitions r.2 { st with gotos := st.gotos ++ [(n, r.1)] } rest

/-- Build one state from a dequeued kernel: close it, partition the
successors, collect the reductions. -/
def processOne {L : Type} [DecidableEq L] (lb : LookaheadBuild L) (lr : LR L)
    (seed : List (Item L)) (ks : KernelSet L) (idx : Nat) : State L × KernelSet L :=
  let items := transitive_closure lb lr seed
  let r := addTransitions ks ⟨idx, items, [], [], []⟩ (transitionsOf lb items)
  ({ r.1 with
      reductions := (items.filter Item.can_reduce).map (fun it => (it.lookahead, it.production)) },
   r.2)

/-- The mutable state of `build_states`' main loop. -/
structure BuildSt (L : Type) : Type where
  ks : KernelSet L
  states : List (State L)
  conflicts : List (Conflict L)

/-- Modelled from the spec: the session's conflict budget check — true
when a budget is configured and the running count exceeds it. -/
def stop_after (budget : Option Nat) (n : Nat) : Bool :=
  match budget with
  | none => false
  | some b => decide (b < n)

/-- One iteration of the main loop: build the state of the dequeued
kernel, push it, and extend the conflict list with its conflicts. -/
def loopStep {L : Type} [DecidableEq L] (lb : LookaheadBuild L) (lr : LR L)
    (seed : List (Item L)) (ks1 : KernelSet L) (st : BuildSt L) : BuildSt L :=
  let r := processOne lb lr seed ks1 st.states.length
  ⟨r.2, st.states ++ [r.1], st.conflicts ++ lb.conflicts r.1⟩

/-- The main loop: while a kernel is pending, build its state, accumulate
its conflicts, and optionally stop early once the budget is exceeded.
`none` means the fuel ran out before the loop finished. -/
def build_loop {L : Type} [DecidableEq L] (lb : LookaheadBuild L) (lr : LR L)
    (budget : Option Nat) : Nat → BuildSt L → Option (BuildSt L)
  | 0, st =>
    match st.ks.next with
    | none => some st
    | some _ => none
  | fuel + 1, st =>
    match st.ks.next with
    | none => some st
    | some (seed, ks1) =>
      if lr.permit_early_stop
          && stop_after budget (loopStep lb lr seed ks1 st).conflicts.length then
        some (loopStep lb lr seed ks1 st)
      else build_loop lb lr budget fuel (loopStep lb lr seed ks1 st)

/-- The aggregated failure: partial state vector plus all conflicts. -/
structure TableConstructionError (L : Type) : Type where
  states : List (State L)
  conflicts : List (Conflict L)
deriving DecidableEq

/-- The result of `build_states`. -/
inductive BuildResult (L : Type) : Type where
  | ok (states : List (State L))
  | err (e : TableConstructionError L)
deriving DecidableEq

/-- The seed kernel of state 0. -/
def startKernelOf {L : Type} (lr : LR L) : List (Item L) :=
  lr.items lr.start_nt 0 lr.start_lookahead

/-- `build_states`: register the start kernel, run the main loop, and
fail with the accumulated conflicts if there are any. -/
def build_states {L : Type} [DecidableEq L] (lb : LookaheadBuild L) (lr : LR L)
    (budget : Option Nat) (fuel : Nat) : Option (BuildResult L) :=
  match build_loop lb lr budget fuel
      ⟨(KernelSet.add_state ⟨[], 0⟩ (startKernelOf lr)).2, [], []⟩ with
  | none => none
  | some st =>
    if st.conflicts.isEmpty then some (BuildResult.ok st.states)
    else some (BuildResult.err ⟨st.states, st.conflicts⟩)

/-! ### The two policies -/

/-- The reducible item reconstructed from a reduction entry. -/
def reduceItem {L : Type} (r : L × Production) : Item L :=
  ⟨r.2, r.2.symbols.length, r.1⟩

/-- Modelled from the spec: reduce-reduce conflicts — every later
reduction whose lookahead overlaps an earlier one. -/
def rrGo {L : Type} (overlap : L → L → Bool) (stIdx : Nat) :
    List (L × Production) → List (Conflict L)
  | [] => []
  | r :: rest =>
    (rest.filterMap (fun r' =>
      if overlap r.1 r'.1 then
        some ⟨stIdx, reduceItem r, ConflictAction.Reduce r'.2⟩
      else none)) ++ rrGo overlap stIdx rest

/-- Modelled from the spec: shift-reduce conflicts — a terminal that is
both a shift key and present in a reducible item's lookahead. -/
def srConflicts {L : Type} (hasTok : L → Nat → Bool) (s : State L) :
    List (Conflict L) :=
  s.reductions.flatMap (fun r =>
    s.shifts.filterMap (fun sh =>
      if hasTok r.1 sh.1 then
        some ⟨s.index, reduceItem r, ConflictAction.Shift sh.1⟩
      else none))

/-- Modelled from the spec: the conflicts of one state. -/
def conflictsFor {L : Type} (overlap : L → L → Bool) (hasTok : L → Nat → Bool)
    (s : State L) : List (Conflict L) :=
  srConflicts hasTok s ++ rrGo overlap s.index s.reductions

/-- The LR(0) policy: unit lookahead, epsilon moves ignore the remainder,
and every reducible item conflicts with every shift and with every other
reduction (its lookahead is the universe). -/
def nilLB : LookaheadBuild Nil where
  encL := fun _ => []
  defaultL := Nil.mk
  mergeL := fun _ _ => Nil.mk
  epsilon_moves := fun lr nt _ la => lr.items nt 0 la
  conflicts := conflictsFor (fun _ _ => true) (fun _ _ => true)
  tcFuel := fun lr _ => lr.grammar.productions.length + 2

/-- Every token mentioned by a seed item: its lookahead and the terminals
of its production. -/
def seedItemTokens (seed : List (Item TokenSet)) : List Nat :=
  seed.flatMap (fun it => it.lookahead ++ it.production.symbols.filterMap termTok)

/-- A finite universe of tokens that bounds every lookahead the LR(1)
closure of `seed` can mention. -/
def tsUniverse (lr : LR TokenSet) (seed : List (Item TokenSet)) : List Nat :=
  tsNorm (grammarTokens lr.grammar ++ tableTokens lr.first_sets ++ seedItemTokens seed)

/-- The LR(1) policy: token-set lookahead, epsilon moves through
`first1`, union on merge, and set-intersection conflict tests. -/
def tokenSetLB : LookaheadBuild TokenSet where
  encL := id
  defaultL := []
  mergeL := tsUnion
  epsilon_moves := fun lr nt remainder la => lr.items nt 0 (lr.first_sets.first1 remainder la)
  conflicts := conflictsFor tsIntersects (fun la t => la.contains (t + 1))
  tcFuel := fun lr seed => lr.grammar.productions.length * 2 ^ (tsUniverse lr seed).length + 2

/-- `LR::new`: fresh context with FIRST sets computed once and early stop
off. -/
def LR.new {L : Type} (g : Grammar) (start_nt : Nat) (la : L) : LR L :=
  ⟨g, FirstSets.new g, start_nt, la, false⟩

/-- `build_lr1_states`: the LR(1) entry point, with early stop permitted. -/
def build_lr1_states (g : Grammar) (start : Nat) (budget : Option Nat)
    (fuel : Nat) : Option (BuildResult TokenSet) :=
  build_states tokenSetLB
    { LR.new g start TokenSet.eof with permit_early_stop := true } budget fuel

/-- `build_lr0_states`: the LR(0) entry point, early stop not permitted. -/
def build_lr0_states (g : Grammar) (start : Nat) (budget : Option Nat)
    (fuel : Nat) : Option (BuildResult Nil) :=
  build_states nilLB (LR.new g start Nil.mk) budget fuel

/-- The fold keeping the longest consumed-symbol sequence seen so far. -/
def ssGo {L : Type} (acc : List Symbol) (l : List (Item L)) : List Symbol :=
  l.foldl
    (fun acc it => if acc.length ≤ (itemConsumed it).length then itemConsumed it else acc)
    acc

/-- Modelled from the spec: a state's prefix — the longest sequence of
symbols consumed by any of its items; the emitter sizes each state
function's stack arguments with it (`State::prefix` of lr1/core). -/
def stackSyms {L : Type} (s : State L) : List Symbol := ssGo [] s.items

/-! ### Auxiliary predicates used by the verification -/

/-- A strictly increasing list of tokens. -/
def SortedND (l : List Nat) : Prop := l.Pairwise (· < ·)

/-- A finite universe for the LR(0) closure: one dot-0 item per
production. -/
def nilUniv (lr : LR Nil) : List (Item Nil) :=
  lr.grammar.productions.map (fun p => ⟨p, 0, Nil.mk⟩)

/-- A finite universe for the LR(1) closure: every dot-0 item over a
production of the grammar carrying a sub-token-set of the universe. -/
def tsUniv (lr : LR TokenSet) (seed : List (Item TokenSet)) : List (Item TokenSet) :=
  lr.grammar.productions.flatMap
    (fun p => (tsUniverse lr seed).sublists.map (fun ts => ⟨p, 0, ts⟩))

/-- Adequacy of a policy's closure fuel for a seed: a finite universe
absorbs the epsilon moves of the seed and of itself, and the fuel covers
the universe. -/
def Adequate {L : Type} [DecidableEq L] (lb : LookaheadBuild L) (lr : LR L)
    (seed : List (Item L)) (univ : List (Item L)) : Prop :=
  (∀ x ∈ seed, ∀ y ∈ epsOf lb lr x, y ∈ univ) ∧
  (∀ x ∈ univ, ∀ y ∈ epsOf lb lr x, y ∈ univ) ∧
  univ.toFinset.card + 2 ≤ lb.tcFuel lr seed

/-- A policy whose epsilon moves produce only dot-0 items (both concrete
policies do). -/
def EpsZero {L : Type} (lb : LookaheadBuild L) : Prop :=
  ∀ (lr : LR L) (x y : Item L), y ∈ epsOf lb lr x → y.index = 0

/-- Lookup in the inner multimap (first entry with the given LR(0) key). -/
def innerLookup {L : Type} (k : Item Nil) (m : List (Item Nil × L)) : Option L :=
  (m.find? (fun kv => kv.1 == k)).map Prod.snd

/-- Lookup in the outer multimap (first entry with the given symbol). -/
def outerLookup {L : Type} (sym : Symbol) (mm : List (Symbol × List (Item Nil × L))) :
    Option (List (Item Nil × L)) :=
  (mm.find? (fun e => e.1 == sym)).map Prod.snd

/-- Both lookups composed. -/
def lookupBoth {L : Type} (mm : List (Symbol × List (Item Nil × L))) (sym : Symbol)
    (k : Item Nil) : Option L :=
  (outerLookup sym mm).bind (innerLookup k)

/-- The lookaheads of the shifted items that transition over `sym` with
the LR(0) core `k`, in item-vector order. -/
def contribsOf {L : Type} [DecidableEq L] (sis : List (Symbol × Item L)) (sym : Symbol)
    (k : Item Nil) : List L :=
  (sis.filter (fun si => si.1 == sym && (Item.lr0 si.2.production si.2.index == k))).map
    (fun si => si.2.lookahead)

/-- Well-formedness of one successor group: non-empty, keys strictly
increasing in LR(0) order, and every key produced by shifting an item of
the closed item set over the group's symbol. -/
def GroupOk {L : Type} (items : List (Item L)) (e : Symbol × List (Item Nil × L)) : Prop :=
  e.2 ≠ [] ∧
  e.2.Pairwise (fun a b => cmpLR0 a.1 b.1 = Ordering.lt) ∧
  ∀ kv ∈ e.2, ∃ src ∈ items, src.production.symbols[src.index]? = some e.1 ∧
    kv.1.production = src.production ∧ kv.1.index = src.index + 1

/-- Well-formedness of the two-level multimap: outer keys strictly
increasing in symbol order, inner keys strictly increasing in LR(0)
order. -/
def MMSorted {L : Type} (mm : List (Symbol × List (Item Nil × L))) : Prop :=
  mm.Pairwise (fun a b => cmpSym a.1 b.1 = Ordering.lt) ∧
  ∀ e ∈ mm, e.2.Pairwise (fun a b => cmpLR0 a.1 b.1 = Ordering.lt)

/-- The main loop invariant: the registry is duplicate-free and ahead of
the queue cursor, each built state is the closure of its registered
kernel in position, conflicts accumulate state by state, every transition
target is a registered non-empty all-shifted kernel, and every registered
kernel other than kernel 0 is non-empty with all dots past position 0. -/
def LoopInvA {L : Type} [DecidableEq L] (lb : LookaheadBuild L) (lr : LR L)
    (st : BuildSt L) : Prop :=
  st.ks.kernels.Nodup ∧
  st.ks.dequeued ≤ st.ks.kernels.length ∧
  st.states.length = st.ks.dequeued ∧
  st.conflicts = st.states.flatMap lb.conflicts ∧
  (∀ i (h : i < st.states.length),
    (st.states.get ⟨i, h⟩).index = i ∧
    (st.states.get ⟨i, h⟩).items = transitive_closure lb lr (st.ks.kernels.getD i []) ∧
    (st.states.get ⟨i, h⟩).reductions
      = ((st.states.get ⟨i, h⟩).items.filter Item.can_reduce).map
          (fun it => (it.lookahead, it.production))) ∧
  (∀ s ∈ st.states, ∀ pr ∈ s.shifts ++ s.gotos,
    pr.2 < st.ks.kernels.length ∧
    st.ks.kernels.getD pr.2 [] ≠ [] ∧
    (∀ it ∈ st.ks.kernels.getD pr.2 [], 1 ≤ it.index)) ∧
  (∀ i, i < st.ks.kernels.length → 0 < i →
    st.ks.kernels.getD i [] ≠ [] ∧ ∀ it ∈ st.ks.kernels.getD i [], 1 ≤ it.index)

/-- The prefix property of a registered kernel: all items are within
their production, and they share a common shifted prefix (a path word)
of length equal to each item's dot index; kernel 0's path is empty,
every other kernel's path is non-empty. -/
def KernelPre {L : Type} (i : Nat) (k : List (Item L)) : Prop :=
  (∀ it ∈ k, it.index ≤ it.production.symbols.length) ∧
  ∃ π : List Symbol, (i = 0 → π = []) ∧ (0 < i → π ≠ []) ∧
    ∀ it ∈ k, it.index ≤ π.length ∧
      itemConsumed it = π.drop (π.length - it.index)

/-- The secondary loop invariant, for the prefix claim: every registered
kernel satisfies the prefix property at its index. -/
def LoopInvB {L : Type} (st : BuildSt L) : Prop :=
  ∀ i, i < st.ks.kernels.length → KernelPre i (st.ks.kernels.getD i [])

/-- The laws a comparator must satisfy: antisymmetric swap, transitivity
of strict comparison, and left congruence of the induced equivalence. -/
structure LawCmp {α : Type u} (cmp : α → α → Ordering) : Prop where
  swap_eq : ∀ a b, cmp b a = (cmp a b).swap
  lt_trans : ∀ {a b c}, cmp a b = Ordering.lt → cmp b c = Ordering.lt →
      cmp a c = Ordering.lt
  congr_left : ∀ {a b} (c), cmp a b = Ordering.eq → cmp b c = cmp a c

theorem LawCmp.congr_right {α : Type u} {cmp : α → α → Ordering} (h : LawCmp cmp)
    {b c : α} (a : α) (hbc : cmp b c = Ordering.eq) : cmp a b = cmp a c := by
  have h1 : cmp c b = Ordering.eq := by
    rw [h.swap_eq, hbc]; rfl
  have h2 : cmp b a = cmp c a := h.congr_left a h1
  have h3 := h.swap_eq a b
  have h4 := h.swap_eq a c
  have h5 : (cmp a b).swap = (cmp a c).swap := by rw [← h3, ← h4, h2]
  cases hab : cmp a b <;> cases hac : cmp a c <;>
    simp [hab, hac, Ordering.swap] at h5 ⊢

theorem lawCmp_natCompare : LawCmp (compare : Nat → Nat → Ordering) := by
  constructor
  · intro a b
    rcases Nat.lt_trichotomy a b with h | h | h
    · rw [Nat.compare_eq_lt.mpr h, Nat.compare_eq_gt.mpr h]; rfl
    · rw [Nat.compare_eq_eq.mpr h, Nat.compare_eq_eq.mpr h.symm]; rfl
    · rw [Nat.compare_eq_gt.mpr h, Nat.compare_eq_lt.mpr h]; rfl
  · intro a b c hab hbc
    exact Nat.compare_eq_lt.mpr
      (Nat.lt_trans (Nat.compare_eq_lt.mp hab) (Nat.compare_eq_lt.mp hbc))
  · intro a b c hab
    rw [Nat.compare_eq_eq.mp hab]

theorem cmpNatList_eq_iff : ∀ {a b : List Nat}, cmpNatList a b = Ordering.eq ↔ a = b := by
  intro a
  induction a with
  | nil => intro b; cases b <;> simp [cmpNatList]
  | cons x xs ih =>
    intro b
    cases b with
    | nil => simp [cmpNatList]
    | cons y ys =>
      simp only [cmpNatList, Ordering.then_eq_eq, Nat.compare_eq_eq, ih, List.cons.injEq]

theorem lawCmp_natList : LawCmp cmpNatList := by
  constructor
  · intro a
    induction a with
    | nil => intro b; cases b <;> rfl
    | cons x xs ih =>
      intro b
      cases b with
      | nil => rfl
      | cons y ys =>
        show (compare y x).then (cmpNatList ys xs)
            = ((compare x y).then (cmpNatList xs ys)).swap
        rw [Ordering.swap_then, lawCmp_natCompare.swap_eq x y, ih ys]
  · intro a
    induction a with
    | nil =>
      intro b c hab hbc
      cases b with
      | nil => cases c <;> simp_all [cmpNatList]
      | cons y ys => cases c <;> simp_all [cmpNatList]
    | cons x xs ih =>
      intro b c hab hbc
      cases b with
      | nil => simp [cmpNatList] at hab
      | cons y ys =>
        cases c with
        | nil => simp [cmpNatList] at hbc
        | cons z zs =>
          simp only [cmpNatList, Ordering.then_eq_lt] at hab hbc ⊢
          rcases hab with h1 | ⟨h1, h1'⟩ <;> rcases hbc with h2 | ⟨h2, h2'⟩
          · exact Or.inl (lawCmp_natCompare.lt_trans h1 h2)
          · left; rw [← lawCmp_natCompare.congr_right x h2]; exact h1
          · left; rw [← lawCmp_natCompare.congr_left z h1]; exact h2
          · right
            refine ⟨?_, ih h1' h2'⟩
            rw [Nat.compare_eq_eq.mp h1]; exact h2
  · intro a b c hab
    rw [cmpNatList_eq_iff.mp hab]

theorem symEnc_injective : Function.Injective symEnc := by
  intro a b h
  cases a <;> cases b <;> simp [symEnc] at h ⊢ <;> omega

theorem prodEnc_injective : Function.Injective prodEnc := by
  intro a b h
  simp only [prodEnc, List.cons.injEq] at h
  obtain ⟨h1, h2, h3⟩ := h
  cases a; cases b
  simp only [Production.mk.injEq]
  exact ⟨h1, List.map_injective_iff.mpr symEnc_injective h3, h2⟩

theorem cmpProd_eq_iff {a b : Production} : cmpProd a b = Ordering.eq ↔ a = b := by
  unfold cmpProd
  rw [cmpNatList_eq_iff]
  exact ⟨fun h => prodEnc_injective h, fun h => by rw [h]⟩

theorem lawCmp_cmpProd : LawCmp cmpProd := by
  constructor
  · intro a b; exact lawCmp_natList.swap_eq _ _
  · intro a b c hab hbc; exact lawCmp_natList.lt_trans hab hbc
  · intro a b c hab
    unfold cmpProd at *
    exact lawCmp_natList.congr_left _ hab

/-- Composition law for lexicographic comparators built with `then`. -/
theorem lawCmp_then {α : Type u} {f g : α → α → Ordering}
    (hf : LawCmp f) (hg : LawCmp g) :
    LawCmp (fun a b => (f a b).then (g a b)) := by
  constructor
  · intro a b
    rw [Ordering.swap_then, hf.swap_eq a b, hg.swap_eq a b]
  · intro a b c hab hbc
    simp only [Ordering.then_eq_lt] at hab hbc ⊢
    rcases hab with h1 | ⟨h1, h1'⟩ <;> rcases hbc with h2 | ⟨h2, h2'⟩
    · exact Or.inl (hf.lt_trans h1 h2)
    · left; rw [← hf.congr_right a h2]; exact h1
    · left; rw [← hf.congr_left c h1]; exact h2
    · right
      refine ⟨by rw [← hf.congr_left c h1]; exact h2, hg.lt_trans h1' h2'⟩
  · intro a b c hab
    simp only [Ordering.then_eq_eq] at hab
    rw [hf.congr_left c hab.1, hg.congr_left c hab.2]

theorem lawCmp_cmpItem {L : Type} (encL : L → List Nat) : LawCmp (cmpItem encL) := by
  have h1 : LawCmp (fun (a b : Item L) => cmpProd a.production b.production) := by
    constructor
    · intro a b; exact lawCmp_cmpProd.swap_eq _ _
    · intro a b c h h'; exact lawCmp_cmpProd.lt_trans h h'
    · intro a b c h; exact lawCmp_cmpProd.congr_left _ h
  have h2 : LawCmp (fun (a b : Item L) => compare a.index b.index) := by
    constructor
    · intro a b; exact lawCmp_natCompare.swap_eq _ _
    · intro a b c h h'; exact lawCmp_natCompare.lt_trans h h'
    · intro a b c h; exact lawCmp_natCompare.congr_left _ h
  have h3 : LawCmp (fun (a b : Item L) =>
      cmpNatList (encL a.lookahead) (encL b.lookahead)) := by
    constructor
    · intro a b; exact lawCmp_natList.swap_eq _ _
    · intro a b c h h'; exact lawCmp_natList.lt_trans h h'
    · intro a b c h; exact lawCmp_natList.congr_left _ h
  exact lawCmp_then h1 (lawCmp_then h2 h3)

theorem itemLeB_trans {L : Type} (encL : L → List Nat) (a b c : Item L)
    (hab : itemLeB encL a b = true) (hbc : itemLeB encL b c = true) :
    itemLeB encL a c = true := by
  have law := lawCmp_cmpItem encL
  simp only [itemLeB, ne_eq, decide_eq_true_eq] at hab hbc ⊢
  intro hac
  cases h1 : cmpItem encL a b with
  | gt => exact hab h1
  | eq =>
    apply hbc
    rw [law.congr_left c h1]
    exact hac
  | lt =>
    cases h2 : cmpItem encL b c with
    | gt => exact hbc h2
    | eq =>
      rw [← law.congr_right a h2] at hac
      rw [h1] at hac
      exact absurd hac (by simp)
    | lt =>
      have h3 := law.lt_trans h1 h2
      rw [h3] at hac
      exact absurd hac (by simp)

theorem build_loop_budget_irrel {L : Type} [DecidableEq L] (lb : LookaheadBuild L)
    (lr : LR L) (h : lr.permit_early_stop = false) (b1 b2 : Option Nat) :
    ∀ fuel st, build_loop lb lr b1 fuel st = build_loop lb lr b2 fuel st := by
  intro fuel
  induction fuel with
  | zero => intro st; rfl
  | succ n ih =>
    intro st
    cases hn : st.ks.next with
    | none => simp [build_loop, hn]
    | some p =>
      obtain ⟨seed, ks1⟩ := p
      simp [build_loop, hn, h, ih]

/-- C4: for every nonterminal `nt`, remainder and lookahead,
`epsilon_moves` returns exactly one dot-0 item per production of `nt`;
the LR(0) instance attaches the unit lookahead regardless of remainder
and lookahead, and the LR(1) instance attaches `first1(remainder, L)`. -/
theorem claim_C4 (lr0 : LR Nil) (lr1 : LR TokenSet) (nt : Nat) (β : List Symbol)
    (la0 : Nil) (la1 : TokenSet) :
    nilLB.epsilon_moves lr0 nt β la0
      = (lr0.grammar.productions_for nt).map (fun p => ⟨p, 0, Nil.mk⟩) ∧
    tokenSetLB.epsilon_moves lr1 nt β la1
      = (lr1.grammar.productions_for nt).map
          (fun p => ⟨p, 0, lr1.first_sets.first1 β la1⟩) := by
  constructor
  · cases la0; rfl
  · rfl

/-- C9: `build_lr1_states` runs the builder with `permit_early_stop`
set, `build_lr0_states` with it unset; when the flag is unset the budget
is never consulted (the loop's result does not depend on it), and when it
is set the loop halts at the end of the outer iteration whose accumulated
conflict count exceeds the budget. -/
theorem claim_C9 :
    (∀ g start budget fuel,
      build_lr1_states g start budget fuel
        = build_states tokenSetLB
            { LR.new g start TokenSet.eof with permit_early_stop := true } budget fuel ∧
      ({ LR.new g start TokenSet.eof with permit_early_stop := true } : LR TokenSet).permit_early_stop
        = true) ∧
    (∀ g start budget fuel,
      build_lr0_states g start budget fuel
        = build_states nilLB (LR.new g start Nil.mk) budget fuel ∧
      (LR.new g start Nil.mk : LR Nil).permit_early_stop = false) ∧
    (∀ (L : Type) (inst : DecidableEq L) (lb : LookaheadBuild L) (lr : LR L),
      lr.permit_early_stop = false →
      ∀ (b1 b2 : Option Nat) fuel st,
        build_loop lb lr b1 fuel st = build_loop lb lr b2 fuel st) ∧
    (∀ (L : Type) (inst : DecidableEq L) (lb : LookaheadBuild L) (lr : LR L)
        (budget : Option Nat) (fuel : Nat) (st : BuildSt L) seed ks1,
      lr.permit_early_stop = true →
      st.ks.next = some (seed, ks1) →
      stop_after budget (loopStep lb lr seed ks1 st).conflicts.length = true →
      build_loop lb lr budget (fuel + 1) st = some (loopStep lb lr seed ks1 st)) := by
  refine ⟨fun g start budget fuel => ⟨rfl, rfl⟩,
          fun g start budget fuel => ⟨rfl, rfl⟩, ?_, ?_⟩
  · intro L inst lb lr h b1 b2 fuel st
    exact build_loop_budget_irrel lb lr h b1 b2 fuel st
  · intro L inst lb lr budget fuel st seed ks1 hperm hnext hstop
    simp [build_loop, hnext, hperm, hstop]

/-- Witness for C9 at a concrete grammar: with the early-stop flag unset
the loop ignores the budget. -/
theorem claim_C9_witness :
    build_loop nilLB (LR.new ⟨[]⟩ 0 Nil.mk) (some 0) 2 ⟨⟨[[]], 0⟩, [], []⟩
      = build_loop nilLB (LR.new ⟨[]⟩ 0 Nil.mk) none 2 ⟨⟨[[]], 0⟩, [], []⟩ :=
  claim_C9.2.2.1 Nil inferInstance nilLB (LR.new ⟨[]⟩ 0 Nil.mk) rfl
    (some 0) none 2 ⟨⟨[[]], 0⟩, [], []⟩

theorem itemLeB_total {L : Type} (encL : L → List Nat) (a b : Item L) :
    (itemLeB encL a b || itemLeB encL b a) = true := by
  have law := lawCmp_cmpItem encL
  simp only [itemLeB, ne_eq, Bool.or_eq_true, decide_eq_true_eq]
  by_cases h : cmpItem encL a b = Ordering.gt
  · right
    intro h'
    have h2 := law.swap_eq a b
    rw [h', h] at h2
    exact absurd h2 (by simp [Ordering.swap])
  · exact Or.inl h

/-! ### Lemmas about `filterNew` -/

theorem mem_filterNew {α : Type} [DecidableEq α] :
    ∀ (seen l : List α) (x : α), x ∈ filterNew seen l → x ∈ l ∧ x ∉ seen := by
  intro seen l
  induction l generalizing seen with
  | nil => intro x h; simp [filterNew] at h
  | cons a as ih =>
    intro x h
    rw [filterNew] at h
    by_cases ha : a ∈ seen
    · rw [if_pos ha] at h
      obtain ⟨h1, h2⟩ := ih seen x h
      exact ⟨List.mem_cons_of_mem _ h1, h2⟩
    · rw [if_neg ha] at h
      rcases List.mem_cons.mp h with rfl | h'
      · exact ⟨List.mem_cons_self _ _, ha⟩
      · obtain ⟨h1, h2⟩ := ih (a :: seen) x h'
        exact ⟨List.mem_cons_of_mem _ h1, fun hx => h2 (List.mem_cons_of_mem _ hx)⟩

theorem filterNew_nodup {α : Type} [DecidableEq α] :
    ∀ (seen l : List α), (filterNew seen l).Nodup := by
  intro seen l
  induction l generalizing seen with
  | nil => simp [filterNew]
  | cons a as ih =>
    rw [filterNew]
    by_cases ha : a ∈ seen
    · rw [if_pos ha]; exact ih seen
    · rw [if_neg ha]
      refine List.Nodup.cons ?_ (ih (a :: seen))
      intro hmem
      exact (mem_filterNew (a :: seen) as a hmem).2 (List.mem_cons_self _ _)

theorem mem_or_filterNew {α : Type} [DecidableEq α] :
    ∀ (seen l : List α) (x : α), x ∈ l → x ∈ seen ∨ x ∈ filterNew seen l := by
  intro seen l
  induction l generalizing seen with
  | nil => intro x h; simp at h
  | cons a as ih =>
    intro x h
    rw [filterNew]
    by_cases ha : a ∈ seen
    · rw [if_pos ha]
      rcases List.mem_cons.mp h with rfl | h'
      · exact Or.inl ha
      · exact ih seen x h'
    · rw [if_neg ha]
      rcases List.mem_cons.mp h with rfl | h'
      · exact Or.inr (List.mem_cons_self _ _)
      · rcases ih (a :: seen) x h' with hs | hf
        · rcases List.mem_cons.mp hs with rfl | hs'
          · exact Or.inr (List.mem_cons_self _ _)
          · exact Or.inl hs'
        · exact Or.inr (List.mem_cons_of_mem _ hf)

theorem filterNew_eq_nil {α : Type} [DecidableEq α] :
    ∀ (seen l : List α), (∀ x ∈ l, x ∈ seen) → filterNew seen l = [] := by
  intro seen l
  induction l generalizing seen with
  | nil => intro _; rfl
  | cons a as ih =>
    intro h
    rw [filterNew, if_pos (h a (List.mem_cons_self _ _))]
    exact ih seen (fun x hx => h x (List.mem_cons_of_mem _ hx))

/-! ### Lemmas about `dedupAdj` -/

theorem dedupAdj_sublist {α : Type} [DecidableEq α] : ∀ (l : List α), List.Sublist (dedupAdj l) l
  | [] => by simp [dedupAdj]
  | [a] => by simp [dedupAdj]
  | a :: b :: rest => by
    rw [dedupAdj]
    by_cases h : a = b
    · rw [if_pos h]
      exact (dedupAdj_sublist (b :: rest)).trans (List.sublist_cons_self a (b :: rest))
    · rw [if_neg h]
      exact (dedupAdj_sublist (b :: rest)).cons₂ a

theorem dedupAdj_cons_head {α : Type} [DecidableEq α] :
    ∀ (b : α) (l : List α), ∃ t, dedupAdj (b :: l) = b :: t := by
  intro b l
  induction l generalizing b with
  | nil => exact ⟨[], rfl⟩
  | cons c rest ih =>
    rw [dedupAdj]
    by_cases h : b = c
    · rw [if_pos h, h]
      exact ih c
    · rw [if_neg h]
      exact ⟨dedupAdj (c :: rest), rfl⟩

theorem dedupAdj_chain' {α : Type} [DecidableEq α] :
    ∀ (l : List α), (dedupAdj l).Chain' (fun a b => a ≠ b)
  | [] => by simp [dedupAdj]
  | [a] => by simp [dedupAdj]
  | a :: b :: rest => by
    rw [dedupAdj]
    by_cases h : a = b
    · rw [if_pos h]
      exact dedupAdj_chain' (b :: rest)
    · rw [if_neg h]
      obtain ⟨t, ht⟩ := dedupAdj_cons_head b rest
      rw [ht]
      rw [List.chain'_cons]
      refine ⟨h, ?_⟩
      have := dedupAdj_chain' (b :: rest)
      rwa [ht] at this

theorem dedupAdj_eq_self {α : Type} [DecidableEq α] :
    ∀ (l : List α), l.Chain' (fun a b => a ≠ b) → dedupAdj l = l
  | [] => fun _ => rfl
  | [a] => fun _ => rfl
  | a :: b :: rest => fun h => by
    rw [List.chain'_cons] at h
    rw [dedupAdj, if_neg h.1, dedupAdj_eq_self (b :: rest) h.2]

theorem mem_dedupAdj {α : Type} [DecidableEq α] :
    ∀ (l : List α) (x : α), x ∈ dedupAdj l ↔ x ∈ l := by
  intro l
  have back : ∀ (l : List α) (x : α), x ∈ l → x ∈ dedupAdj l := by
    intro l
    induction l with
    | nil => intro x h; simp at h
    | cons a as ih =>
      intro x h
      match as, ih with
      | [], _ => simpa [dedupAdj] using h
      | b :: rest, ih =>
        rw [dedupAdj]
        by_cases hab : a = b
        · rw [if_pos hab]
          rcases List.mem_cons.mp h with rfl | h'
          · exact ih x (hab ▸ List.mem_cons_self _ _)
          · exact ih x h'
        · rw [if_neg hab]
          rcases List.mem_cons.mp h with rfl | h'
          · exact List.mem_cons_self _ _
          · exact List.mem_cons_of_mem _ (ih x h')
  exact fun x => ⟨fun h => (dedupAdj_sublist l).subset h, back l x⟩

/-! ### Lemmas about `closureLoop` -/

theorem closureLoop_done {L : Type} [DecidableEq L] (eps : Item L → List (Item L))
    (fuel : Nat) (items : List (Item L)) (counter : Nat)
    (h : items.length ≤ counter) : closureLoop eps fuel items counter = items := by
  cases fuel with
  | zero => rfl
  | succ n =>
    rw [closureLoop, if_neg (by omega)]

theorem closureLoop_extends {L : Type} [DecidableEq L] (eps : Item L → List (Item L)) :
    ∀ (fuel : Nat) (items : List (Item L)) (counter : Nat),
      ∃ ext, closureLoop eps fuel items counter = items ++ ext := by
  intro fuel
  induction fuel with
  | zero => intro items counter; exact ⟨[], by simp [closureLoop]⟩
  | succ n ih =>
    intro items counter
    rw [closureLoop]
    by_cases hc : counter < items.length
    · rw [if_pos hc]
      obtain ⟨ext, hext⟩ :=
        ih (items ++ filterNew items ((items.drop counter).flatMap eps)) items.length
      exact ⟨_, by rw [hext, List.append_assoc]⟩
    · rw [if_neg hc]
      exact ⟨[], by simp⟩

theorem closureLoop_prov {L : Type} [DecidableEq L] (eps : Item L → List (Item L)) :
    ∀ (fuel : Nat) (items : List (Item L)) (counter : Nat) (x : Item L),
      x ∈ closureLoop eps fuel items counter →
      x ∈ items ∨ ∃ src, x ∈ eps src := by
  intro fuel
  induction fuel with
  | zero => intro items counter x h; exact Or.inl h
  | succ n ih =>
    intro items counter x h
    rw [closureLoop] at h
    by_cases hc : counter < items.length
    · rw [if_pos hc] at h
      rcases ih _ _ x h with hmem | hsrc
      · rcases List.mem_append.mp hmem with h1 | h2
        · exact Or.inl h1
        · have h3 := (mem_filterNew _ _ x h2).1
          obtain ⟨a, _, ha⟩ := List.mem_flatMap.mp h3
          exact Or.inr ⟨a, ha⟩
      · exact Or.inr hsrc
    · rw [if_neg hc] at h
      exact Or.inl h

theorem closureLoop_of_closed {L : Type} [DecidableEq L] (eps : Item L → List (Item L))
    (fuel : Nat) (V : List (Item L)) (hc : ∀ x ∈ V, ∀ y ∈ eps x, y ∈ V) :
    closureLoop eps fuel V 0 = V := by
  cases fuel with
  | zero => rfl
  | succ n =>
    rw [closureLoop]
    by_cases h0 : 0 < V.length
    · rw [if_pos h0]
      have hnil : filterNew V ((V.drop 0).flatMap eps) = [] := by
        apply filterNew_eq_nil
        intro x hx
        obtain ⟨a, ha, hax⟩ := List.mem_flatMap.mp hx
        exact hc a (by simpa using ha) x hax
      rw [hnil, List.append_nil]
      exact closureLoop_done eps n V V.length le_rfl
    · rw [if_neg h0]

/-- The master lemma for the closure loop: with a finite universe
absorbing all epsilon moves and enough fuel, the loop reaches a fixed
point; the result extends the items with a duplicate-free extension drawn
from the universe, every element's epsilon moves stay inside the result,
and one more unit of fuel changes nothing. -/
theorem closureLoop_main {L : Type} [DecidableEq L] (eps : Item L → List (Item L))
    (univ : List (Item L)) (hU : ∀ x ∈ univ, ∀ y ∈ eps x, y ∈ univ) :
    ∀ (fuel : Nat) (items extra : List (Item L)) (counter : Nat),
      (∀ x ∈ items, ∀ y ∈ eps x, y ∈ univ) →
      (∀ x ∈ items.take counter, ∀ y ∈ eps x, y ∈ items) →
      extra.Nodup → (∀ x ∈ extra, x ∈ univ) → (∀ x ∈ extra, x ∈ items) →
      univ.toFinset.card + 2 ≤ fuel + extra.length →
      ∃ ext, closureLoop eps fuel items counter = items ++ ext ∧
        ext.Nodup ∧ (∀ x ∈ ext, x ∈ univ) ∧ (∀ x ∈ ext, x ∉ items) ∧
        (∀ x ∈ items ++ ext, ∀ y ∈ eps x, y ∈ items ++ ext) ∧
        closureLoop eps (fuel + 1) items counter = items ++ ext := by
  intro fuel
  induction fuel with
  | zero =>
    intro items extra counter _ _ h3 h4 _ h6
    exfalso
    have e1 : extra.toFinset.card = extra.length := List.toFinset_card_of_nodup h3
    have e2 : extra.toFinset ⊆ univ.toFinset := by
      intro x hx
      rw [List.mem_toFinset] at hx ⊢
      exact h4 x hx
    have := Finset.card_le_card e2
    omega
  | succ n ih =>
    intro items extra counter h1 h2 h3 h4 h5 h6
    by_cases hc : counter < items.length
    · -- an active pass
      have hsplit : items.take counter ++ items.drop counter = items :=
        List.take_append_drop counter items
      have hflat : ∀ y ∈ (items.drop counter).flatMap eps, y ∈ univ := by
        intro y hy
        obtain ⟨a, ha, hay⟩ := List.mem_flatMap.mp hy
        exact h1 a (List.drop_subset _ _ ha) y hay
      by_cases hnil : filterNew items ((items.drop counter).flatMap eps) = []
      · -- the pass adds nothing: the loop is done
        have hclosed : ∀ x ∈ items, ∀ y ∈ eps x, y ∈ items := by
          intro x hx y hy
          rcases List.mem_append.mp (hsplit ▸ hx) with hx1 | hx2
          · exact h2 x hx1 y hy
          · have hyf : y ∈ (items.drop counter).flatMap eps :=
              List.mem_flatMap.mpr ⟨x, hx2, hy⟩
            rcases mem_or_filterNew items _ y hyf with h | h
            · exact h
            · rw [hnil] at h; simp at h
        have hr1 : closureLoop eps (n + 1) items counter = items := by
          rw [closureLoop, if_pos hc, hnil, List.append_nil]
          exact closureLoop_done eps n items items.length le_rfl
        have hr2 : closureLoop eps (n + 2) items counter = items := by
          rw [closureLoop, if_pos hc, hnil, List.append_nil]
          exact closureLoop_done eps (n + 1) items items.length le_rfl
        refine ⟨[], by simpa using hr1, List.nodup_nil, by simp, by simp, ?_, by simpa using hr2⟩
        simpa using hclosed
      · -- the pass adds at least one new item
        set news := filterNew items ((items.drop counter).flatMap eps) with hnewsdef
        have hnewsU : ∀ x ∈ news, x ∈ univ := by
          intro x hx
          exact hflat x (mem_filterNew _ _ x hx).1
        have hnewsNI : ∀ x ∈ news, x ∉ items := fun x hx => (mem_filterNew _ _ x hx).2
        have hnewsND : news.Nodup := filterNew_nodup _ _
        have hlen : 1 ≤ news.length := by
          rcases news with _ | ⟨a, l⟩
          · exact absurd rfl hnil
          · simp
        obtain ⟨ext', heq, hnd, hUx, hNI, hcl, hstab⟩ :=
          ih (items ++ news) (extra ++ news) items.length
            (by
              intro x hx
              rcases List.mem_append.mp hx with h | h
              · exact h1 x h
              · exact hU x (hnewsU x h))
            (by
              intro x hx y hy
              rw [List.take_left] at hx
              rcases List.mem_append.mp (hsplit ▸ hx) with hx1 | hx2
              · exact List.mem_append_left _ (h2 x hx1 y hy)
              · have hyf : y ∈ (items.drop counter).flatMap eps :=
                  List.mem_flatMap.mpr ⟨x, hx2, hy⟩
                rcases mem_or_filterNew items _ y hyf with h | h
                · exact List.mem_append_left _ h
                · exact List.mem_append_right _ h)
            (by
              refine List.Nodup.append h3 hnewsND ?_
              intro a ha hna
              exact hnewsNI a hna (h5 a ha))
            (by
              intro x hx
              rcases List.mem_append.mp hx with h | h
              · exact h4 x h
              · exact hnewsU x h)
            (by
              intro x hx
              rcases List.mem_append.mp hx with h | h
              · exact List.mem_append_left _ (h5 x h)
              · exact List.mem_append_right _ h)
            (by
              rw [List.length_append]
              omega)
        refine ⟨news ++ ext', ?_, ?_, ?_, ?_, ?_, ?_⟩
        · rw [closureLoop, if_pos hc, ← hnewsdef, heq, List.append_assoc]
        · refine List.Nodup.append hnewsND hnd ?_
          intro a ha hna
          exact hNI a hna (List.mem_append_right _ ha)
        · intro x hx
          rcases List.mem_append.mp hx with h | h
          · exact hnewsU x h
          · exact hUx x h
        · intro x hx
          rcases List.mem_append.mp hx with h | h
          · exact hnewsNI x h
          · exact fun hxi => hNI x h (List.mem_append_left _ hxi)
        · intro x hx y hy
          rw [← List.append_assoc] at hx ⊢
          exact hcl x hx y hy
        · rw [closureLoop, if_pos hc, ← hnewsdef, hstab, List.append_assoc]
    · -- the queue part is exhausted: both runs return `items`
      have hr1 : closureLoop eps (n + 1) items counter = items := by
        rw [closureLoop, if_neg hc]
      have hr2 : closureLoop eps (n + 2) items counter = items := by
        rw [closureLoop, if_neg hc]
      have hclosed : ∀ x ∈ items, ∀ y ∈ eps x, y ∈ items := by
        intro x hx y hy
        exact h2 x (by rwa [List.take_of_length_le (by omega)]) y hy
      refine ⟨[], by simpa using hr1, List.nodup_nil, by simp, by simp, ?_, by simpa using hr2⟩
      simpa using hclosed

/-- The closure loop at adequate fuel, started on the seed. -/
theorem closureLoop_run {L : Type} [DecidableEq L] (eps : Item L → List (Item L))
    (univ seed : List (Item L)) (fuel : Nat)
    (hSeed : ∀ x ∈ seed, ∀ y ∈ eps x, y ∈ univ)
    (hU : ∀ x ∈ univ, ∀ y ∈ eps x, y ∈ univ)
    (hFuel : univ.toFinset.card + 2 ≤ fuel) :
    ∃ ext, closureLoop eps fuel seed 0 = seed ++ ext ∧
      ext.Nodup ∧ (∀ x ∈ ext, x ∈ univ) ∧ (∀ x ∈ ext, x ∉ seed) ∧
      (∀ x ∈ seed ++ ext, ∀ y ∈ eps x, y ∈ seed ++ ext) ∧
      closureLoop eps (fuel + 1) seed 0 = seed ++ ext :=
  closureLoop_main eps univ hU fuel seed [] 0 hSeed (by simp)
    List.nodup_nil (by simp) (by simp) (by simpa using hFuel)

/-- Stabilization: any extra fuel beyond an adequate bound leaves the
loop's result unchanged. -/
theorem closureLoop_stab {L : Type} [DecidableEq L] (eps : Item L → List (Item L))
    (univ seed : List (Item L)) (fuel : Nat)
    (hSeed : ∀ x ∈ seed, ∀ y ∈ eps x, y ∈ univ)
    (hU : ∀ x ∈ univ, ∀ y ∈ eps x, y ∈ univ)
    (hFuel : univ.toFinset.card + 2 ≤ fuel) :
    ∀ k, closureLoop eps (fuel + k) seed 0 = closureLoop eps fuel seed 0 := by
  intro k
  induction k with
  | zero => rfl
  | succ m ih =>
    obtain ⟨ext, h1, _, _, _, _, h6⟩ :=
      closureLoop_run eps univ seed (fuel + m) hSeed hU (by omega)
    calc closureLoop eps (fuel + (m + 1)) seed 0
        = closureLoop eps ((fuel + m) + 1) seed 0 := by ring_nf
      _ = seed ++ ext := h6
      _ = closureLoop eps (fuel + m) seed 0 := h1.symm
      _ = closureLoop eps fuel seed 0 := ih

/-! ### Lemmas about `insertSorted` and `sortByLe` -/

theorem mem_insertSorted {α : Type} (le : α → α → Bool) (x a : α) :
    ∀ (l : List α), a ∈ insertSorted le x l ↔ a = x ∨ a ∈ l := by
  intro l
  induction l with
  | nil => simp [insertSorted]
  | cons y ys ih =>
    rw [insertSorted]
    by_cases h : le x y
    · rw [if_pos h]
      simp [List.mem_cons]
    · rw [if_neg h]
      simp only [List.mem_cons, ih]
      tauto

theorem mem_sortByLe {α : Type} (le : α → α → Bool) (a : α) :
    ∀ (l : List α), a ∈ sortByLe le l ↔ a ∈ l := by
  intro l
  induction l with
  | nil => simp [sortByLe]
  | cons y ys ih =>
    show a ∈ insertSorted le y (sortByLe le ys) ↔ _
    rw [mem_insertSorted, ih]
    simp [List.mem_cons]

theorem sorted_insertSorted {α : Type} (le : α → α → Bool)
    (htrans : ∀ a b c, le a b = true → le b c = true → le a c = true)
    (htotal : ∀ a b, (le a b || le b a) = true) (x : α) :
    ∀ (l : List α), l.Pairwise (fun a b => le a b = true) →
      (insertSorted le x l).Pairwise (fun a b => le a b = true) := by
  intro l
  induction l with
  | nil => intro _; simp [insertSorted]
  | cons y ys ih =>
    intro h
    obtain ⟨hy, hys⟩ := List.pairwise_cons.mp h
    rw [insertSorted]
    by_cases hxy : le x y
    · rw [if_pos hxy]
      refine List.pairwise_cons.mpr ⟨?_, h⟩
      intro b hb
      rcases List.mem_cons.mp hb with rfl | hb'
      · exact hxy
      · exact htrans x y b hxy (hy b hb')
    · rw [if_neg hxy]
      refine List.pairwise_cons.mpr ⟨?_, ih hys⟩
      intro b hb
      rcases (mem_insertSorted le x b ys).mp hb with hbx | hb'
      · rcases Bool.or_eq_true_iff.mp (htotal x y) with h1 | h1
        · exact absurd h1 hxy
        · rw [hbx]; exact h1
      · exact hy b hb'

theorem sorted_sortByLe {α : Type} (le : α → α → Bool)
    (htrans : ∀ a b c, le a b = true → le b c = true → le a c = true)
    (htotal : ∀ a b, (le a b || le b a) = true) :
    ∀ (l : List α), (sortByLe le l).Pairwise (fun a b => le a b = true) := by
  intro l
  induction l with
  | nil => simp [sortByLe]
  | cons y ys ih =>
    exact sorted_insertSorted le htrans htotal y _ ih

theorem sortByLe_of_sorted {α : Type} (le : α → α → Bool) :
    ∀ (l : List α), l.Pairwise (fun a b => le a b = true) → sortByLe le l = l := by
  intro l
  induction l with
  | nil => intro _; rfl
  | cons y ys ih =>
    intro h
    obtain ⟨hy, hys⟩ := List.pairwise_cons.mp h
    show insertSorted le y (sortByLe le ys) = y :: ys
    rw [ih hys]
    cases ys with
    | nil => rfl
    | cons z zs =>
      rw [insertSorted, if_pos (hy z (List.mem_cons_self _ _))]

/-! ### Properties of `transitive_closure` -/

theorem tc_mem_loop {L : Type} [DecidableEq L] (lb : LookaheadBuild L) (lr : LR L)
    (seed : List (Item L)) (x : Item L) :
    x ∈ transitive_closure lb lr seed ↔
      x ∈ closureLoop (epsOf lb lr) (lb.tcFuel lr seed) seed 0 := by
  unfold transitive_closure
  rw [mem_dedupAdj, mem_sortByLe]

theorem tc_sorted {L : Type} [DecidableEq L] (lb : LookaheadBuild L) (lr : LR L)
    (seed : List (Item L)) :
    (transitive_closure lb lr seed).Pairwise (fun a b => itemLeB lb.encL a b = true) := by
  unfold transitive_closure
  exact List.Pairwise.sublist (dedupAdj_sublist _)
    (sorted_sortByLe _ (itemLeB_trans lb.encL) (itemLeB_total lb.encL) _)

theorem tc_chain' {L : Type} [DecidableEq L] (lb : LookaheadBuild L) (lr : LR L)
    (seed : List (Item L)) :
    (transitive_closure lb lr seed).Chain' (fun a b => a ≠ b) :=
  dedupAdj_chain' _

theorem tc_seed_subset {L : Type} [DecidableEq L] (lb : LookaheadBuild L) (lr : LR L)
    (seed : List (Item L)) : ∀ x ∈ seed, x ∈ transitive_closure lb lr seed := by
  intro x hx
  rw [tc_mem_loop]
  obtain ⟨ext, hext⟩ := closureLoop_extends (epsOf lb lr) (lb.tcFuel lr seed) seed 0
  rw [hext]
  exact List.mem_append_left _ hx

theorem tc_prov {L : Type} [DecidableEq L] (lb : LookaheadBuild L) (lr : LR L)
    (seed : List (Item L)) :
    ∀ x ∈ transitive_closure lb lr seed, x ∈ seed ∨ ∃ src, x ∈ epsOf lb lr src := by
  intro x hx
  rw [tc_mem_loop] at hx
  exact closureLoop_prov (epsOf lb lr) _ seed 0 x hx

theorem tc_closed {L : Type} [DecidableEq L] {lb : LookaheadBuild L} {lr : LR L}
    {seed univ : List (Item L)} (had : Adequate lb lr seed univ) :
    ∀ x ∈ transitive_closure lb lr seed, ∀ y ∈ epsOf lb lr x,
      y ∈ transitive_closure lb lr seed := by
  obtain ⟨hSeed, hU, hFuel⟩ := had
  obtain ⟨ext, h1, _, _, _, hclosed, _⟩ :=
    closureLoop_run (epsOf lb lr) univ seed (lb.tcFuel lr seed) hSeed hU hFuel
  intro x hx y hy
  rw [tc_mem_loop] at hx ⊢
  rw [h1] at hx ⊢
  exact hclosed x hx y hy

/-- Idempotence of the closure, given an adequate universe for the first
run: the closure of a closed, sorted, de-duplicated vector is itself. -/
theorem tc_idem {L : Type} [DecidableEq L] {lb : LookaheadBuild L} {lr : LR L}
    {seed univ : List (Item L)} (had : Adequate lb lr seed univ) :
    transitive_closure lb lr (transitive_closure lb lr seed)
      = transitive_closure lb lr seed := by
  have hc : ∀ x ∈ transitive_closure lb lr seed, ∀ y ∈ epsOf lb lr x,
      y ∈ transitive_closure lb lr seed := tc_closed had
  have hloop :
      closureLoop (epsOf lb lr) (lb.tcFuel lr (transitive_closure lb lr seed))
        (transitive_closure lb lr seed) 0 = transitive_closure lb lr seed :=
    closureLoop_of_closed _ _ _ hc
  show dedupAdj (sortByLe _ _) = _
  rw [hloop, sortByLe_of_sorted _ _ (tc_sorted lb lr seed),
    dedupAdj_eq_self _ (tc_chain' lb lr seed)]

/-! ### Token-set lemmas -/

theorem mem_tsInsert (x y : Nat) : ∀ (l : List Nat), x ∈ tsInsert y l ↔ x = y ∨ x ∈ l := by
  intro l
  induction l with
  | nil => simp [tsInsert]
  | cons a as ih =>
    rw [tsInsert]
    by_cases h1 : y < a
    · rw [if_pos h1]
      simp [List.mem_cons]
    · rw [if_neg h1]
      by_cases h2 : y = a
      · rw [if_pos h2]
        subst h2
        simp only [List.mem_cons]
        tauto
      · rw [if_neg h2]
        simp only [List.mem_cons, ih]
        tauto

theorem sortedND_tsInsert (y : Nat) : ∀ (l : List Nat), SortedND l → SortedND (tsInsert y l) := by
  intro l
  induction l with
  | nil => intro _; simp [tsInsert, SortedND]
  | cons a as ih =>
    intro h
    obtain ⟨ha, has⟩ := List.pairwise_cons.mp h
    rw [tsInsert]
    by_cases h1 : y < a
    · rw [if_pos h1]
      refine List.pairwise_cons.mpr ⟨?_, h⟩
      intro b hb
      rcases List.mem_cons.mp hb with rfl | hb'
      · exact h1
      · exact Nat.lt_trans h1 (ha b hb')
    · rw [if_neg h1]
      by_cases h2 : y = a
      · rw [if_pos h2]; exact h
      · rw [if_neg h2]
        refine List.pairwise_cons.mpr ⟨?_, ih has⟩
        intro b hb
        rcases (mem_tsInsert b y as).mp hb with rfl | hb'
        · omega
        · exact ha b hb'

theorem mem_tsUnion (x : Nat) : ∀ (b a : List Nat), x ∈ tsUnion a b ↔ x ∈ a ∨ x ∈ b := by
  intro b
  induction b with
  | nil => intro a; simp [tsUnion]
  | cons y ys ih =>
    intro a
    show x ∈ tsUnion (tsInsert y a) ys ↔ _
    rw [ih (tsInsert y a), mem_tsInsert]
    simp only [List.mem_cons]
    tauto

theorem sortedND_tsUnion : ∀ (b a : List Nat), SortedND a → SortedND (tsUnion a b) := by
  intro b
  induction b with
  | nil => intro a h; exact h
  | cons y ys ih =>
    intro a h
    exact ih (tsInsert y a) (sortedND_tsInsert y a h)

theorem mem_tsNorm (x : Nat) (l : List Nat) : x ∈ tsNorm l ↔ x ∈ l := by
  unfold tsNorm
  rw [mem_tsUnion]
  simp

theorem sortedND_tsNorm (l : List Nat) : SortedND (tsNorm l) :=
  sortedND_tsUnion l [] (List.Pairwise.nil)

theorem lookup_mem : ∀ (tbl : List (Nat × List Nat)) (n : Nat) (v : List Nat),
    tbl.lookup n = some v → (n, v) ∈ tbl := by
  intro tbl
  induction tbl with
  | nil => intro n v h; simp [List.lookup] at h
  | cons e rest ih =>
    intro n v h
    obtain ⟨k, w⟩ := e
    rw [List.lookup] at h
    by_cases hk : n = k
    · subst hk
      simp only [beq_self_eq_true] at h
      obtain rfl : w = v := by injection h
      exact List.mem_cons_self _ _
    · have hbeq : (n == k) = false := by simpa using hk
      rw [hbeq] at h
      exact List.mem_cons_of_mem _ (ih n v h)

theorem first_of_subset (fs : FirstSets) (n : Nat) :
    ∀ t ∈ fs.first_of n, t ∈ tableTokens fs := by
  intro t ht
  unfold FirstSets.first_of at ht
  cases hlk : fs.table.lookup n with
  | none => rw [hlk] at ht; simp at ht
  | some v =>
    rw [hlk] at ht
    simp only [Option.getD_some] at ht
    exact List.mem_flatMap.mpr ⟨(n, v), lookup_mem fs.table n v hlk, ht⟩

theorem first1Go_subset (fs : FirstSets) (La : TokenSet) :
    ∀ (β : List Symbol) (R : List Nat) (t : Nat), t ∈ first1Go fs La β R →
      t ∈ R ∨ t ∈ La ∨ (∃ s ∈ β, termTok s = some t) ∨ t ∈ tableTokens fs := by
  intro β
  induction β with
  | nil =>
    intro R t h
    rw [first1Go, mem_tsUnion] at h
    tauto
  | cons s rest ih =>
    intro R t h
    cases s with
    | Terminal u =>
      rw [first1Go, mem_tsInsert] at h
      rcases h with rfl | h
      · exact Or.inr (Or.inr (Or.inl ⟨Symbol.Terminal u, List.mem_cons_self _ _, rfl⟩))
      · exact Or.inl h
    | Nonterminal n =>
      rw [first1Go] at h
      by_cases hn : fs.is_nullable n
      · rw [if_pos hn] at h
        rcases ih (tsUnion R (fs.first_of n)) t h with h1 | h1 | ⟨s', hs', h1⟩ | h1
        · rcases (mem_tsUnion t _ R).mp h1 with h2 | h2
          · exact Or.inl h2
          · exact Or.inr (Or.inr (Or.inr (first_of_subset fs n t h2)))
        · exact Or.inr (Or.inl h1)
        · exact Or.inr (Or.inr (Or.inl ⟨s', List.mem_cons_of_mem _ hs', h1⟩))
        · exact Or.inr (Or.inr (Or.inr h1))
      · rw [if_neg hn, mem_tsUnion] at h
        rcases h with h1 | h1
        · exact Or.inl h1
        · exact Or.inr (Or.inr (Or.inr (first_of_subset fs n t h1)))

theorem first1Go_sortedND (fs : FirstSets) (La : TokenSet) :
    ∀ (β : List Symbol) (R : List Nat), SortedND R → SortedND (first1Go fs La β R) := by
  intro β
  induction β with
  | nil => intro R h; exact sortedND_tsUnion La R h
  | cons s rest ih =>
    intro R h
    cases s with
    | Terminal u => exact sortedND_tsInsert _ _ h
    | Nonterminal n =>
      rw [first1Go]
      by_cases hn : fs.is_nullable n
      · rw [if_pos hn]
        exact ih _ (sortedND_tsUnion _ R h)
      · rw [if_neg hn]
        exact sortedND_tsUnion _ R h

theorem sortedND_sublist : ∀ (M l : List Nat), SortedND l → SortedND M →
    (∀ x ∈ l, x ∈ M) → List.Sublist l M := by
  intro M
  induction M with
  | nil =>
    intro l _ _ hsub
    cases l with
    | nil => exact List.Sublist.refl []
    | cons a as => exact absurd (hsub a (List.mem_cons_self _ _)) (by simp)
  | cons m M' ih =>
    intro l hl hM hsub
    obtain ⟨hm, hM'⟩ := List.pairwise_cons.mp hM
    cases l with
    | nil => exact List.nil_sublist _
    | cons x l' =>
      obtain ⟨hx, hl'⟩ := List.pairwise_cons.mp hl
      by_cases hxm : x = m
      · subst hxm
        refine List.Sublist.cons₂ x (ih l' hl' hM' ?_)
        intro y hy
        rcases List.mem_cons.mp (hsub y (List.mem_cons_of_mem _ hy)) with rfl | h
        · exact absurd (hx y hy) (lt_irrefl y)
        · exact h
      · have hxM' : x ∈ M' := by
          rcases List.mem_cons.mp (hsub x (List.mem_cons_self _ _)) with h | h
          · exact absurd h hxm
          · exact h
        have hmx : m < x := hm x hxM'
        refine List.Sublist.cons m (ih (x :: l') hl hM' ?_)
        intro y hy
        rcases List.mem_cons.mp (hsub y hy) with rfl | h
        · rcases List.mem_cons.mp hy with h' | h'
          · exact absurd h'.symm hxm
          · have := hx y h'
            omega
        · exact h

theorem sum_map_const {α : Type} (l : List α) (c : Nat) :
    (l.map (fun _ => c)).sum = l.length * c := by
  induction l with
  | nil => simp
  | cons a as ih =>
    simp only [List.map_cons, List.sum_cons, ih, List.length_cons]
    ring

/-! ### Adequacy of the two concrete policies -/

theorem epsOf_cases {L : Type} (lb : LookaheadBuild L) (lr : LR L) (x y : Item L)
    (h : y ∈ epsOf lb lr x) :
    ∃ nt rem, x.shift_symbol = some (Symbol.Nonterminal nt, rem) ∧
      y ∈ lb.epsilon_moves lr nt rem x.lookahead := by
  unfold epsOf at h
  cases hss : x.shift_symbol with
  | none => rw [hss] at h; simp at h
  | some p =>
    obtain ⟨s, rem⟩ := p
    rw [hss] at h
    cases s with
    | Terminal t => simp at h
    | Nonterminal nt => exact ⟨nt, rem, rfl, h⟩

theorem shift_symbol_spec {L : Type} (x : Item L) (s : Symbol) (rem : List Symbol)
    (h : x.shift_symbol = some (s, rem)) :
    x.production.symbols[x.index]? = some s ∧
      rem = x.production.symbols.drop (x.index + 1) := by
  unfold Item.shift_symbol at h
  cases hg : x.production.symbols[x.index]? with
  | none => rw [hg] at h; simp at h
  | some s' =>
    rw [hg] at h
    simp only [Option.some.injEq, Prod.mk.injEq] at h
    exact ⟨by rw [h.1], h.2.symm⟩

theorem shifted_item_spec {L : Type} (x : Item L) (s : Symbol) (y : Item L)
    (h : x.shifted_item = some (s, y)) :
    x.production.symbols[x.index]? = some s ∧
      y = ⟨x.production, x.index + 1, x.lookahead⟩ := by
  unfold Item.shifted_item at h
  cases hg : x.production.symbols[x.index]? with
  | none => rw [hg] at h; simp at h
  | some s' =>
    rw [hg] at h
    simp only [Option.some.injEq, Prod.mk.injEq] at h
    exact ⟨by rw [h.1], h.2.symm⟩

theorem mem_grammarTokens {g : Grammar} {p : Production} (hp : p ∈ g.productions)
    {s : Symbol} (hs : s ∈ p.symbols) {t : Nat} (ht : termTok s = some t) :
    t ∈ grammarTokens g := by
  unfold grammarTokens
  exact List.mem_cons_of_mem _
    (List.mem_flatMap.mpr ⟨p, hp, List.mem_filterMap.mpr ⟨s, hs, ht⟩⟩)

theorem mem_seedItemTokens_la {seed : List (Item TokenSet)} {x : Item TokenSet}
    (hx : x ∈ seed) {t : Nat} (ht : t ∈ x.lookahead) : t ∈ seedItemTokens seed :=
  List.mem_flatMap.mpr ⟨x, hx, List.mem_append_left _ ht⟩

theorem mem_seedItemTokens_sym {seed : List (Item TokenSet)} {x : Item TokenSet}
    (hx : x ∈ seed) {s : Symbol} (hs : s ∈ x.production.symbols) {t : Nat}
    (ht : termTok s = some t) : t ∈ seedItemTokens seed :=
  List.mem_flatMap.mpr ⟨x, hx, List.mem_append_right _ (List.mem_filterMap.mpr ⟨s, hs, ht⟩)⟩

theorem mem_tsUniverse (lr : LR TokenSet) (seed : List (Item TokenSet)) (t : Nat)
    (h : t ∈ grammarTokens lr.grammar ∨ t ∈ tableTokens lr.first_sets ∨
         t ∈ seedItemTokens seed) :
    t ∈ tsUniverse lr seed := by
  unfold tsUniverse
  rw [mem_tsNorm]
  simp only [List.mem_append]
  tauto

theorem sortedND_tsUniverse (lr : LR TokenSet) (seed : List (Item TokenSet)) :
    SortedND (tsUniverse lr seed) :=
  sortedND_tsNorm _

theorem epsOf_ts_mem (lr : LR TokenSet) (seed : List (Item TokenSet))
    (x y : Item TokenSet)
    (hla : ∀ t ∈ x.lookahead, t ∈ tsUniverse lr seed)
    (hsym : ∀ s ∈ x.production.symbols, ∀ t, termTok s = some t → t ∈ tsUniverse lr seed)
    (h : y ∈ epsOf tokenSetLB lr x) : y ∈ tsUniv lr seed := by
  obtain ⟨nt, rem, hss, hmv⟩ := epsOf_cases _ _ _ _ h
  obtain ⟨-, hrem⟩ := shift_symbol_spec x _ _ hss
  simp only [tokenSetLB, LR.items] at hmv
  obtain ⟨p, hp, rfl⟩ := List.mem_map.mp hmv
  have hsub : ∀ t ∈ lr.first_sets.first1 rem x.lookahead, t ∈ tsUniverse lr seed := by
    intro t ht
    rcases first1Go_subset lr.first_sets x.lookahead rem [] t ht with h1 | h1 | ⟨s, hs, h1⟩ | h1
    · simp at h1
    · exact hla t h1
    · exact hsym s (List.drop_subset _ _ (by rwa [← hrem])) t h1
    · exact mem_tsUniverse lr seed t (Or.inr (Or.inl h1))
  have hsnd : SortedND (lr.first_sets.first1 rem x.lookahead) :=
    first1Go_sortedND _ _ rem [] List.Pairwise.nil
  have hsl : List.Sublist (lr.first_sets.first1 rem x.lookahead) (tsUniverse lr seed) :=
    sortedND_sublist _ _ hsnd (sortedND_tsUniverse lr seed) hsub
  unfold tsUniv
  exact List.mem_flatMap.mpr
    ⟨p, List.filter_subset' _ hp,
     List.mem_map.mpr ⟨_, List.mem_sublists.mpr hsl, rfl⟩⟩

theorem mem_tsUniv_shape (lr : LR TokenSet) (seed : List (Item TokenSet))
    (x : Item TokenSet) (h : x ∈ tsUniv lr seed) :
    x.index = 0 ∧ x.production ∈ lr.grammar.productions ∧
      ∀ t ∈ x.lookahead, t ∈ tsUniverse lr seed := by
  unfold tsUniv at h
  obtain ⟨p, hp, hx⟩ := List.mem_flatMap.mp h
  obtain ⟨ts, hts, rfl⟩ := List.mem_map.mp hx
  exact ⟨rfl, hp, fun t ht => (List.mem_sublists.mp hts).subset ht⟩

theorem tsUniv_length (lr : LR TokenSet) (seed : List (Item TokenSet)) :
    (tsUniv lr seed).length
      = lr.grammar.productions.length * 2 ^ (tsUniverse lr seed).length := by
  unfold tsUniv
  rw [List.length_flatMap]
  have heq : List.map
      (List.length ∘ fun p => (tsUniverse lr seed).sublists.map
        (fun ts => (⟨p, 0, ts⟩ : Item TokenSet)))
      lr.grammar.productions
      = lr.grammar.productions.map (fun _ => 2 ^ (tsUniverse lr seed).length) := by
    apply List.map_congr_left
    intro p _
    simp [List.length_sublists]
  rw [heq, sum_map_const]

theorem adequate_ts (lr : LR TokenSet) (seed : List (Item TokenSet)) :
    Adequate tokenSetLB lr seed (tsUniv lr seed) := by
  refine ⟨?_, ?_, ?_⟩
  · intro x hx y hy
    refine epsOf_ts_mem lr seed x y ?_ ?_ hy
    · intro t ht
      exact mem_tsUniverse lr seed t (Or.inr (Or.inr (mem_seedItemTokens_la hx ht)))
    · intro s hs t ht
      exact mem_tsUniverse lr seed t (Or.inr (Or.inr (mem_seedItemTokens_sym hx hs ht)))
  · intro x hx y hy
    obtain ⟨_, hp, hla⟩ := mem_tsUniv_shape lr seed x hx
    refine epsOf_ts_mem lr seed x y hla ?_ hy
    intro s hs t ht
    exact mem_tsUniverse lr seed t (Or.inl (mem_grammarTokens hp hs ht))
  · have h1 := List.toFinset_card_le (tsUniv lr seed)
    have h2 := tsUniv_length lr seed
    have h3 : tokenSetLB.tcFuel lr seed
        = lr.grammar.productions.length * 2 ^ (tsUniverse lr seed).length + 2 := rfl
    rw [h3]
    omega

theorem epsOf_nil_mem (lr : LR Nil) (x y : Item Nil) (h : y ∈ epsOf nilLB lr x) :
    y ∈ nilUniv lr := by
  obtain ⟨nt, rem, hss, hmv⟩ := epsOf_cases _ _ _ _ h
  simp only [nilLB, LR.items] at hmv
  obtain ⟨p, hp, rfl⟩ := List.mem_map.mp hmv
  unfold nilUniv
  refine List.mem_map.mpr ⟨p, List.filter_subset' _ hp, ?_⟩
  cases x.lookahead
  rfl

theorem adequate_nil (lr : LR Nil) (seed : List (Item Nil)) :
    Adequate nilLB lr seed (nilUniv lr) := by
  refine ⟨fun x _ y hy => epsOf_nil_mem lr x y hy,
          fun x _ y hy => epsOf_nil_mem lr x y hy, ?_⟩
  have h1 := List.toFinset_card_le (nilUniv lr)
  have h2 : (nilUniv lr).length = lr.grammar.productions.length := List.length_map _ _
  have h3 : nilLB.tcFuel lr seed = lr.grammar.productions.length + 2 := rfl
  rw [h3]
  omega

theorem epsZero_nil : EpsZero nilLB := by
  intro lr x y h
  obtain ⟨nt, rem, _, hmv⟩ := epsOf_cases _ _ _ _ h
  simp only [nilLB, LR.items] at hmv
  obtain ⟨p, _, rfl⟩ := List.mem_map.mp hmv
  rfl

theorem epsZero_ts : EpsZero tokenSetLB := by
  intro lr x y h
  obtain ⟨nt, rem, _, hmv⟩ := epsOf_cases _ _ _ _ h
  simp only [tokenSetLB, LR.items] at hmv
  obtain ⟨p, _, rfl⟩ := List.mem_map.mp hmv
  rfl

/-- C5: `transitive_closure` is idempotent for both instantiations: the
closure of a closure is the same sorted, de-duplicated item vector. -/
theorem claim_C5 :
    (∀ (lr : LR Nil) (seed : List (Item Nil)),
      transitive_closure nilLB lr (transitive_closure nilLB lr seed)
        = transitive_closure nilLB lr seed) ∧
    (∀ (lr : LR TokenSet) (seed : List (Item TokenSet)),
      transitive_closure tokenSetLB lr (transitive_closure tokenSetLB lr seed)
        = transitive_closure tokenSetLB lr seed) :=
  ⟨fun lr seed => tc_idem (adequate_nil lr seed),
   fun lr seed => tc_idem (adequate_ts lr seed)⟩

/-- C6: the closure loop terminates on every seed: the fuel the policies
supply reaches the fixed point (extra fuel changes nothing), every item
added beyond the seed has dot index 0, and the added items form a
duplicate-free list bounded by the number of productions times the number
of possible lookaheads. -/
theorem claim_C6 :
    (∀ (lr : LR Nil) (seed : List (Item Nil)),
      (∀ k, closureLoop (epsOf nilLB lr) (nilLB.tcFuel lr seed + k) seed 0
          = closureLoop (epsOf nilLB lr) (nilLB.tcFuel lr seed) seed 0) ∧
      (∀ x ∈ transitive_closure nilLB lr seed, x ∉ seed → x.index = 0) ∧
      (∃ ext, closureLoop (epsOf nilLB lr) (nilLB.tcFuel lr seed) seed 0 = seed ++ ext ∧
        ext.Nodup ∧ ext.length ≤ lr.grammar.productions.length)) ∧
    (∀ (lr : LR TokenSet) (seed : List (Item TokenSet)),
      (∀ k, closureLoop (epsOf tokenSetLB lr) (tokenSetLB.tcFuel lr seed + k) seed 0
          = closureLoop (epsOf tokenSetLB lr) (tokenSetLB.tcFuel lr seed) seed 0) ∧
      (∀ x ∈ transitive_closure tokenSetLB lr seed, x ∉ seed → x.index = 0) ∧
      (∃ ext, closureLoop (epsOf tokenSetLB lr) (tokenSetLB.tcFuel lr seed) seed 0
          = seed ++ ext ∧
        ext.Nodup ∧
        ext.length ≤ lr.grammar.productions.length * 2 ^ (tsUniverse lr seed).length)) := by
  constructor
  · intro lr seed
    obtain ⟨hS, hU, hF⟩ := adequate_nil lr seed
    refine ⟨closureLoop_stab _ _ _ _ hS hU hF, ?_, ?_⟩
    · intro x hx hxs
      rcases tc_prov nilLB lr seed x hx with h | ⟨src, hsrc⟩
      · exact absurd h hxs
      · exact epsZero_nil lr src x hsrc
    · obtain ⟨ext, h1, hnd, hUx, _, _, _⟩ := closureLoop_run _ _ _ _ hS hU hF
      refine ⟨ext, h1, hnd, ?_⟩
      have e1 : ext.toFinset.card = ext.length := List.toFinset_card_of_nodup hnd
      have e2 : ext.toFinset ⊆ (nilUniv lr).toFinset := fun x hx =>
        List.mem_toFinset.mpr (hUx x (List.mem_toFinset.mp hx))
      have e3 := Finset.card_le_card e2
      have e4 := List.toFinset_card_le (nilUniv lr)
      have e5 : (nilUniv lr).length = lr.grammar.productions.length := List.length_map _ _
      omega
  · intro lr seed
    obtain ⟨hS, hU, hF⟩ := adequate_ts lr seed
    refine ⟨closureLoop_stab _ _ _ _ hS hU hF, ?_, ?_⟩
    · intro x hx hxs
      rcases tc_prov tokenSetLB lr seed x hx with h | ⟨src, hsrc⟩
      · exact absurd h hxs
      · exact epsZero_ts lr src x hsrc
    · obtain ⟨ext, h1, hnd, hUx, _, _, _⟩ := closureLoop_run _ _ _ _ hS hU hF
      refine ⟨ext, h1, hnd, ?_⟩
      have e1 : ext.toFinset.card = ext.length := List.toFinset_card_of_nodup hnd
      have e2 : ext.toFinset ⊆ (tsUniv lr seed).toFinset := fun x hx =>
        List.mem_toFinset.mpr (hUx x (List.mem_toFinset.mp hx))
      have e3 := Finset.card_le_card e2
      have e4 := List.toFinset_card_le (tsUniv lr seed)
      have e5 := tsUniv_length lr seed
      omega

/-- Witness for C6: in the grammar with productions S -> A and A -> a,
the closure of the seed item S -> . A adds the item A -> . a, whose dot
index is 0. -/
theorem claim_C6_witness :
    (⟨⟨1, [Symbol.Terminal 0], 1⟩, 0, Nil.mk⟩ : Item Nil).index = 0 :=
  (claim_C6.1
    (LR.new ⟨[⟨0, [Symbol.Nonterminal 1], 0⟩, ⟨1, [Symbol.Terminal 0], 1⟩]⟩ 0 Nil.mk)
    [⟨⟨0, [Symbol.Nonterminal 1], 0⟩, 0, Nil.mk⟩]).2.1
    ⟨⟨1, [Symbol.Terminal 0], 1⟩, 0, Nil.mk⟩ (by decide) (by decide)

/-! ### Lemmas about the kernel registry -/

theorem findKernel_some {L : Type} [DecidableEq L] :
    ∀ (l : List (List (Item L))) (k : List (Item L)) (i : Nat),
      findKernel k l = some i → i < l.length ∧ l.getD i [] = k := by
  intro l
  induction l with
  | nil => intro k i h; simp [findKernel] at h
  | cons k' rest ih =>
    intro k i h
    rw [findKernel] at h
    by_cases he : k' = k
    · rw [if_pos he] at h
      obtain rfl : i = 0 := by injection h with h'; exact h'.symm
      exact ⟨by simp, he⟩
    · rw [if_neg he] at h
      cases hf : findKernel k rest with
      | none => rw [hf] at h; simp at h
      | some j =>
        rw [hf] at h
        have hh : some (j + 1) = some i := h
        obtain rfl : i = j + 1 := by injection hh with h'; exact h'.symm
        obtain ⟨h1, h2⟩ := ih k j hf
        exact ⟨by simpa using h1, by simpa using h2⟩

theorem findKernel_none {L : Type} [DecidableEq L] :
    ∀ (l : List (List (Item L))) (k : List (Item L)),
      findKernel k l = none → k ∉ l := by
  intro l
  induction l with
  | nil => intro k _ h; simp at h
  | cons k' rest ih =>
    intro k h hmem
    rw [findKernel] at h
    by_cases he : k' = k
    · rw [if_pos he] at h; simp at h
    · rw [if_neg he] at h
      rcases List.mem_cons.mp hmem with rfl | hm
      · exact he rfl
      · cases hf : findKernel k rest with
        | none => exact ih k hf hm
        | some j => rw [hf] at h; simp at h

theorem add_state_spec {L : Type} [DecidableEq L] (ks : KernelSet L) (k : List (Item L)) :
    ((ks.add_state k).2.kernels = ks.kernels ∨
      (ks.add_state k).2.kernels = ks.kernels ++ [k]) ∧
    (ks.add_state k).2.dequeued = ks.dequeued ∧
    (ks.add_state k).1 < (ks.add_state k).2.kernels.length ∧
    (ks.add_state k).2.kernels.getD (ks.add_state k).1 [] = k ∧
    (ks.kernels.Nodup → (ks.add_state k).2.kernels.Nodup) := by
  unfold KernelSet.add_state
  cases hf : findKernel k ks.kernels with
  | some i =>
    obtain ⟨h1, h2⟩ := findKernel_some ks.kernels k i hf
    exact ⟨Or.inl rfl, rfl, h1, h2, fun h => h⟩
  | none =>
    refine ⟨Or.inr rfl, rfl, by simp, ?_, ?_⟩
    · show (ks.kernels ++ [k]).getD ks.kernels.length [] = k
      rw [List.getD_eq_getElem?_getD, List.getElem?_concat_length]
      rfl
    · intro h
      refine List.Nodup.append h (List.nodup_singleton k) ?_
      intro a ha hak
      rw [List.mem_singleton] at hak
      exact findKernel_none ks.kernels k hf (hak ▸ ha)

theorem next_some {L : Type} (ks : KernelSet L) (seed : List (Item L))
    (ks' : KernelSet L) (h : ks.next = some (seed, ks')) :
    ks.dequeued < ks.kernels.length ∧ seed = ks.kernels.getD ks.dequeued [] ∧
    ks'.kernels = ks.kernels ∧ ks'.dequeued = ks.dequeued + 1 := by
  unfold KernelSet.next at h
  by_cases hd : ks.dequeued < ks.kernels.length
  · rw [dif_pos hd] at h
    simp only [Option.some.injEq, Prod.mk.injEq] at h
    refine ⟨hd, ?_, by rw [← h.2], by rw [← h.2]⟩
    rw [← h.1, List.getD_eq_getElem _ _ hd, List.get_eq_getElem]
  · rw [dif_neg hd] at h
    simp at h

theorem next_none {L : Type} (ks : KernelSet L) (h : ks.next = none) :
    ks.kernels.length ≤ ks.dequeued := by
  unfold KernelSet.next at h
  by_cases hd : ks.dequeued < ks.kernels.length
  · rw [dif_pos hd] at h; simp at h
  · omega

/-! ### Lemmas about the successor multimaps -/

theorem cmpLR0_eq_iff (a b : Item Nil) : cmpLR0 a b = Ordering.eq ↔ a = b := by
  unfold cmpLR0 cmpItem
  rw [Ordering.then_eq_eq, Ordering.then_eq_eq]
  constructor
  · rintro ⟨h1, h2, -⟩
    obtain ⟨pa, ia, la⟩ := a
    obtain ⟨pb, ib, lb⟩ := b
    cases la; cases lb
    simp only [Item.mk.injEq]
    exact ⟨cmpProd_eq_iff.mp h1, Nat.compare_eq_eq.mp h2, by trivial⟩
  · rintro rfl
    exact ⟨cmpProd_eq_iff.mpr rfl, Nat.compare_eq_eq.mpr rfl, by trivial⟩

theorem cmpSym_eq_iff (a b : Symbol) : cmpSym a b = Ordering.eq ↔ a = b := by
  unfold cmpSym
  rw [Nat.compare_eq_eq]
  exact ⟨fun h => symEnc_injective h, fun h => by rw [h]⟩

theorem lawCmp_cmpLR0 : LawCmp cmpLR0 := lawCmp_cmpItem (fun _ => [])

theorem innerInsert_ne_nil {L : Type} (lb : LookaheadBuild L) (k : Item Nil) (la : L) :
    ∀ (m : List (Item Nil × L)), innerInsert lb k la m ≠ [] := by
  intro m
  cases m with
  | nil => simp [innerInsert]
  | cons kv rest =>
    obtain ⟨k', v'⟩ := kv
    rw [innerInsert]
    cases h : cmpLR0 k k' <;> simp

theorem innerInsert_keys {L : Type} (lb : LookaheadBuild L) (k : Item Nil) (la : L) :
    ∀ (m : List (Item Nil × L)) (kv : Item Nil × L), kv ∈ innerInsert lb k la m →
      kv.1 = k ∨ ∃ kv' ∈ m, kv.1 = kv'.1 := by
  intro m
  induction m with
  | nil =>
    intro kv h
    rw [innerInsert, List.mem_singleton] at h
    exact Or.inl (by rw [h])
  | cons e rest ih =>
    intro kv h
    obtain ⟨k', v'⟩ := e
    rw [innerInsert] at h
    cases hc : cmpLR0 k k' with
    | lt =>
      rw [hc] at h
      rcases List.mem_cons.mp h with rfl | h'
      · exact Or.inl rfl
      · rcases List.mem_cons.mp h' with rfl | h''
        · exact Or.inr ⟨(k', v'), List.mem_cons_self _ _, rfl⟩
        · exact Or.inr ⟨kv, List.mem_cons_of_mem _ h'', rfl⟩
    | eq =>
      rw [hc] at h
      rcases List.mem_cons.mp h with rfl | h'
      · exact Or.inr ⟨(k', v'), List.mem_cons_self _ _, rfl⟩
      · exact Or.inr ⟨kv, List.mem_cons_of_mem _ h', rfl⟩
    | gt =>
      rw [hc] at h
      rcases List.mem_cons.mp h with rfl | h'
      · exact Or.inr ⟨(k', v'), List.mem_cons_self _ _, rfl⟩
      · rcases ih kv h' with h1 | ⟨kv', hkv', h2⟩
        · exact Or.inl h1
        · exact Or.inr ⟨kv', List.mem_cons_of_mem _ hkv', h2⟩

theorem innerInsert_sorted {L : Type} (lb : LookaheadBuild L) (k : Item Nil) (la : L) :
    ∀ (m : List (Item Nil × L)),
      m.Pairwise (fun a b => cmpLR0 a.1 b.1 = Ordering.lt) →
      (innerInsert lb k la m).Pairwise (fun a b => cmpLR0 a.1 b.1 = Ordering.lt) := by
  intro m
  induction m with
  | nil => intro _; simp [innerInsert]
  | cons e rest ih =>
    intro hs
    obtain ⟨k', v'⟩ := e
    obtain ⟨hk', hrest⟩ := List.pairwise_cons.mp hs
    rw [innerInsert]
    cases hc : cmpLR0 k k' with
    | lt =>
      refine List.pairwise_cons.mpr ⟨?_, hs⟩
      intro b hb
      rcases List.mem_cons.mp hb with rfl | hb'
      · exact hc
      · exact lawCmp_cmpLR0.lt_trans hc (hk' b hb')
    | eq =>
      exact List.pairwise_cons.mpr ⟨fun b hb => hk' b hb, hrest⟩
    | gt =>
      refine List.pairwise_cons.mpr ⟨?_, ih hrest⟩
      intro b hb
      rcases innerInsert_keys lb k la rest b hb with h1 | ⟨kv', hkv', h2⟩
      · rw [h1]
        have hsw := lawCmp_cmpLR0.swap_eq k k'
        rw [hc] at hsw
        exact hsw
      · rw [h2]
        exact hk' kv' hkv'

theorem outerInsert_entries {L : Type} (lb : LookaheadBuild L) (sym : Symbol)
    (k : Item Nil) (la : L) :
    ∀ (mm : List (Symbol × List (Item Nil × L))) (e : Symbol × List (Item Nil × L)),
      e ∈ outerInsert lb sym k la mm →
      e ∈ mm ∨ (e.1 = sym ∧ (e.2 = innerInsert lb k la [] ∨
        ∃ m', (e.1, m') ∈ mm ∧ e.2 = innerInsert lb k la m')) := by
  intro mm
  induction mm with
  | nil =>
    intro e h
    rw [outerInsert, List.mem_singleton] at h
    subst h
    exact Or.inr ⟨rfl, Or.inl rfl⟩
  | cons f rest ih =>
    intro e h
    obtain ⟨s', m⟩ := f
    rw [outerInsert] at h
    cases hc : cmpSym sym s' with
    | lt =>
      rw [hc] at h
      rcases List.mem_cons.mp h with rfl | h'
      · exact Or.inr ⟨rfl, Or.inl rfl⟩
      · exact Or.inl h'
    | eq =>
      rw [hc] at h
      have hss : sym = s' := (cmpSym_eq_iff sym s').mp hc
      rcases List.mem_cons.mp h with rfl | h'
      · exact Or.inr ⟨hss.symm, Or.inr ⟨m, by rw [← hss]; exact List.mem_cons_self _ _, rfl⟩⟩
      · exact Or.inl (List.mem_cons_of_mem _ h')
    | gt =>
      rw [hc] at h
      rcases List.mem_cons.mp h with rfl | h'
      · exact Or.inl (List.mem_cons_self _ _)
      · rcases ih e h' with h1 | ⟨h1, h2 | ⟨m', hm', h3⟩⟩
        · exact Or.inl (List.mem_cons_of_mem _ h1)
        · exact Or.inr ⟨h1, Or.inl h2⟩
        · exact Or.inr ⟨h1, Or.inr ⟨m', List.mem_cons_of_mem _ hm', h3⟩⟩

theorem transitions_fold_groupOk {L : Type} [DecidableEq L] (lb : LookaheadBuild L)
    (items : List (Item L)) :
    ∀ (sis : List (Symbol × Item L)) (mm : List (Symbol × List (Item Nil × L))),
      (∀ si ∈ sis, ∃ src ∈ items, src.shifted_item = some si) →
      (∀ e ∈ mm, GroupOk items e) →
      ∀ e ∈ sis.foldl (fun mm si =>
          outerInsert lb si.1 (Item.lr0 si.2.production si.2.index) si.2.lookahead mm) mm,
        GroupOk items e := by
  intro sis
  induction sis with
  | nil => intro mm _ hmm e he; exact hmm e he
  | cons si rest ih =>
    intro mm hsrc hmm e he
    refine ih (outerInsert lb si.1 (Item.lr0 si.2.production si.2.index) si.2.lookahead mm)
      (fun si' h => hsrc si' (List.mem_cons_of_mem _ h)) ?_ e he
    intro f hf
    obtain ⟨src, hsrcmem, hsi⟩ := hsrc si (List.mem_cons_self _ _)
    obtain ⟨hsym, hshape⟩ := shifted_item_spec src si.1 si.2 hsi
    have hkeyprod : (Item.lr0 si.2.production si.2.index).production = src.production := by
      rw [hshape]; rfl
    have hkeyidx : (Item.lr0 si.2.production si.2.index).index = src.index + 1 := by
      rw [hshape]; rfl
    rcases outerInsert_entries lb si.1 _ si.2.lookahead mm f hf with h1 | ⟨h1, h2 | ⟨m', hm', h3⟩⟩
    · exact hmm f h1
    · refine ⟨by rw [h2]; exact innerInsert_ne_nil _ _ _ _,
              by rw [h2]; exact innerInsert_sorted _ _ _ [] (by simp), ?_⟩
      intro kv hkv
      rw [h2] at hkv
      rcases innerInsert_keys _ _ _ [] kv hkv with hk | ⟨kv', hkv', -⟩
      · exact ⟨src, hsrcmem, by rw [h1]; exact hsym,
          by rw [hk]; exact hkeyprod, by rw [hk]; exact hkeyidx⟩
      · simp at hkv'
    · obtain ⟨-, hsort, hprov⟩ := hmm (f.1, m') hm'
      refine ⟨by rw [h3]; exact innerInsert_ne_nil _ _ _ _,
              by rw [h3]; exact innerInsert_sorted _ _ _ m' hsort, ?_⟩
      intro kv hkv
      rw [h3] at hkv
      rcases innerInsert_keys _ _ _ m' kv hkv with hk | ⟨kv', hkv', h4⟩
      · exact ⟨src, hsrcmem, by rw [h1]; exact hsym,
          by rw [hk]; exact hkeyprod, by rw [hk]; exact hkeyidx⟩
      · obtain ⟨s, hs, ha, hb, hc2⟩ := hprov kv' hkv'
        exact ⟨s, hs, ha, by rw [h4]; exact hb, by rw [h4]; exact hc2⟩

theorem transitionsOf_groupOk {L : Type} [DecidableEq L] (lb : LookaheadBuild L)
    (items : List (Item L)) :
    ∀ e ∈ transitionsOf lb items, GroupOk items e := by
  intro e he
  unfold transitionsOf at he
  refine transitions_fold_groupOk lb items (items.filterMap Item.shifted_item) [] ?_
    (by simp) e he
  intro si hsi
  obtain ⟨src, hsrc, hs⟩ := List.mem_filterMap.mp hsi
  exact ⟨src, hsrc, hs⟩

/-! ### The transition-registration walk -/

theorem addTransitions_spec {L : Type} [DecidableEq L] :
    ∀ (gs : List (Symbol × List (Item Nil × L))) (ks : KernelSet L) (s : State L),
      (∃ t, (addTransitions ks s gs).2.kernels = ks.kernels ++ t) ∧
      (addTransitions ks s gs).2.dequeued = ks.dequeued ∧
      (ks.kernels.Nodup → (addTransitions ks s gs).2.kernels.Nodup) ∧
      (addTransitions ks s gs).1.items = s.items ∧
      (addTransitions ks s gs).1.index = s.index ∧
      (addTransitions ks s gs).1.reductions = s.reductions ∧
      (∀ pr ∈ (addTransitions ks s gs).1.shifts ++ (addTransitions ks s gs).1.gotos,
        pr ∈ s.shifts ++ s.gotos ∨
        ∃ m, (∃ sym, (sym, m) ∈ gs) ∧ pr.2 < (addTransitions ks s gs).2.kernels.length ∧
          (addTransitions ks s gs).2.kernels.getD pr.2 [] = kernelOfGroup m) ∧
      (∀ i, i < (addTransitions ks s gs).2.kernels.length → ks.kernels.length ≤ i →
        ∃ sym m, (sym, m) ∈ gs ∧
          (addTransitions ks s gs).2.kernels.getD i [] = kernelOfGroup m) := by
  intro gs
  induction gs with
  | nil =>
    intro ks s
    refine ⟨⟨[], by simp [addTransitions]⟩, rfl, fun h => h, rfl, rfl, rfl, ?_, ?_⟩
    · intro pr hpr
      exact Or.inl hpr
    · intro i h1 h2
      simp only [addTransitions] at h1
      omega
  | cons g rest ih =>
    intro ks s
    obtain ⟨sym, m⟩ := g
    obtain ⟨hks, hdq, hlt, hgetD, hnd⟩ := add_state_spec ks (kernelOfGroup m)
    -- facts about the one-step registry
    have hlen1 : ks.kernels.length ≤ (ks.add_state (kernelOfGroup m)).2.kernels.length := by
      rcases hks with h | h <;> simp [h]
    have hgetDold : ∀ j, j < ks.kernels.length →
        (ks.add_state (kernelOfGroup m)).2.kernels.getD j []
          = ks.kernels.getD j [] := by
      intro j hj
      rcases hks with h | h
      · rw [h]
      · rw [h, List.getD_append _ _ _ _ hj]
    cases sym with
    | Terminal t =>
      have key := ih (ks.add_state (kernelOfGroup m)).2
        { s with shifts := s.shifts ++ [(t, (ks.add_state (kernelOfGroup m)).1)] }
      obtain ⟨⟨t2, hk2⟩, hdq2, hnd2, hit2, hix2, hred2, hpr2, hnew2⟩ := key
      have heq : addTransitions ks s ((Symbol.Terminal t, m) :: rest)
          = addTransitions (ks.add_state (kernelOfGroup m)).2
              { s with shifts := s.shifts ++ [(t, (ks.add_state (kernelOfGroup m)).1)] }
              rest := by
        rw [addTransitions]
      rw [heq]
      have hpreserve : ∀ j, j < (ks.add_state (kernelOfGroup m)).2.kernels.length →
          (addTransitions (ks.add_state (kernelOfGroup m)).2
            { s with shifts := s.shifts ++ [(t, (ks.add_state (kernelOfGroup m)).1)] }
            rest).2.kernels.getD j []
          = (ks.add_state (kernelOfGroup m)).2.kernels.getD j [] := by
        intro j hj
        rw [hk2, List.getD_append _ _ _ _ hj]
      refine ⟨?_, ?_, ?_, hit2, hix2, hred2, ?_, ?_⟩
      · rcases hks with h | h
        · exact ⟨t2, by rw [hk2, h]⟩
        · exact ⟨[kernelOfGroup m] ++ t2, by rw [hk2, h, List.append_assoc]⟩
      · rw [hdq2, hdq]
      · intro h
        exact hnd2 (hnd h)
      · intro pr hpr
        rcases hpr2 pr hpr with h1 | ⟨m', ⟨sym', hsym'⟩, hb, hg⟩
        · -- pr came from the extended shifts of the intermediate state
          simp only [List.mem_append] at h1
          rcases h1 with (h1 | h1) | h1
          · exact Or.inl (List.mem_append.mpr (Or.inl h1))
          · -- the new entry (t, index of m's kernel)
            rw [List.mem_singleton] at h1
            subst h1
            refine Or.inr ⟨m, ⟨Symbol.Terminal t, List.mem_cons_self _ _⟩, ?_, ?_⟩
            · have : (ks.add_state (kernelOfGroup m)).2.kernels.length
                  ≤ (addTransitions (ks.add_state (kernelOfGroup m)).2
                      { s with shifts := s.shifts ++ [(t, (ks.add_state (kernelOfGroup m)).1)] }
                      rest).2.kernels.length := by
                rw [hk2]; simp
              omega
            · rw [hpreserve _ hlt]
              exact hgetD
          · exact Or.inl (List.mem_append.mpr (Or.inr h1))
        · exact Or.inr ⟨m', ⟨sym', List.mem_cons_of_mem _ hsym'⟩, hb, hg⟩
      · intro i hi1 hi2
        by_cases hcase : (ks.add_state (kernelOfGroup m)).2.kernels.length ≤ i
        · obtain ⟨sym', m', hmem, hget⟩ := hnew2 i hi1 hcase
          exact ⟨sym', m', List.mem_cons_of_mem _ hmem, hget⟩
        · push_neg at hcase
          refine ⟨Symbol.Terminal t, m, List.mem_cons_self _ _, ?_⟩
          rw [hpreserve _ hcase]
          rcases hks with h | h
          · rw [h] at hcase; omega
          · have hieq : i = ks.kernels.length := by
              rw [h] at hcase
              simp at hcase
              omega
            rw [hieq, h, List.getD_eq_getElem?_getD, List.getElem?_concat_length]
            rfl
    | Nonterminal n =>
      have key := ih (ks.add_state (kernelOfGroup m)).2
        { s with gotos := s.gotos ++ [(n, (ks.add_state (kernelOfGroup m)).1)] }
      obtain ⟨⟨t2, hk2⟩, hdq2, hnd2, hit2, hix2, hred2, hpr2, hnew2⟩ := key
      have heq : addTransitions ks s ((Symbol.Nonterminal n, m) :: rest)
          = addTransitions (ks.add_state (kernelOfGroup m)).2
              { s with gotos := s.gotos ++ [(n, (ks.add_state (kernelOfGroup m)).1)] }
              rest := by
        rw [addTransitions]
      rw [heq]
      have hpreserve : ∀ j, j < (ks.add_state (kernelOfGroup m)).2.kernels.length →
          (addTransitions (ks.add_state (kernelOfGroup m)).2
            { s with gotos := s.gotos ++ [(n, (ks.add_state (kernelOfGroup m)).1)] }
            rest).2.kernels.getD j []
          = (ks.add_state (kernelOfGroup m)).2.kernels.getD j [] := by
        intro j hj
        rw [hk2, List.getD_append _ _ _ _ hj]
      refine ⟨?_, ?_, ?_, hit2, hix2, hred2, ?_, ?_⟩
      · rcases hks with h | h
        · exact ⟨t2, by rw [hk2, h]⟩
        · exact ⟨[kernelOfGroup m] ++ t2, by rw [hk2, h, List.append_assoc]⟩
      · rw [hdq2, hdq]
      · intro h
        exact hnd2 (hnd h)
      · intro pr hpr
        rcases hpr2 pr hpr with h1 | ⟨m', ⟨sym', hsym'⟩, hb, hg⟩
        · simp only [List.mem_append] at h1
          rcases h1 with h1 | (h1 | h1)
          · exact Or.inl (List.mem_append.mpr (Or.inl h1))
          · exact Or.inl (List.mem_append.mpr (Or.inr h1))
          · rw [List.mem_singleton] at h1
            subst h1
            refine Or.inr ⟨m, ⟨Symbol.Nonterminal n, List.mem_cons_self _ _⟩, ?_, ?_⟩
            · have : (ks.add_state (kernelOfGroup m)).2.kernels.length
                  ≤ (addTransitions (ks.add_state (kernelOfGroup m)).2
                      { s with gotos := s.gotos ++ [(n, (ks.add_state (kernelOfGroup m)).1)] }
                      rest).2.kernels.length := by
                rw [hk2]; simp
              omega
            · rw [hpreserve _ hlt]
              exact hgetD
        · exact Or.inr ⟨m', ⟨sym', List.mem_cons_of_mem _ hsym'⟩, hb, hg⟩
      · intro i hi1 hi2
        by_cases hcase : (ks.add_state (kernelOfGroup m)).2.kernels.length ≤ i
        · obtain ⟨sym', m', hmem, hget⟩ := hnew2 i hi1 hcase
          exact ⟨sym', m', List.mem_cons_of_mem _ hmem, hget⟩
        · push_neg at hcase
          refine ⟨Symbol.Nonterminal n, m, List.mem_cons_self _ _, ?_⟩
          rw [hpreserve _ hcase]
          rcases hks with h | h
          · rw [h] at hcase; omega
          · have hieq : i = ks.kernels.length := by
              rw [h] at hcase
              simp at hcase
              omega
            rw [hieq, h, List.getD_eq_getElem?_getD, List.getElem?_concat_length]
            rfl

theorem processOne_spec {L : Type} [DecidableEq L] (lb : LookaheadBuild L) (lr : LR L)
    (seed : List (Item L)) (ks : KernelSet L) (idx : Nat) :
    (processOne lb lr seed ks idx).1.index = idx ∧
    (processOne lb lr seed ks idx).1.items = transitive_closure lb lr seed ∧
    (processOne lb lr seed ks idx).1.reductions
      = ((transitive_closure lb lr seed).filter Item.can_reduce).map
          (fun it => (it.lookahead, it.production)) ∧
    (∃ t, (processOne lb lr seed ks idx).2.kernels = ks.kernels ++ t) ∧
    (processOne lb lr seed ks idx).2.dequeued = ks.dequeued ∧
    (ks.kernels.Nodup → (processOne lb lr seed ks idx).2.kernels.Nodup) ∧
    (∀ pr ∈ (processOne lb lr seed ks idx).1.shifts ++ (processOne lb lr seed ks idx).1.gotos,
      ∃ m, (∃ sym, (sym, m) ∈ transitionsOf lb (transitive_closure lb lr seed)) ∧
        pr.2 < (processOne lb lr seed ks idx).2.kernels.length ∧
        (processOne lb lr seed ks idx).2.kernels.getD pr.2 [] = kernelOfGroup m) ∧
    (∀ i, i < (processOne lb lr seed ks idx).2.kernels.length → ks.kernels.length ≤ i →
      ∃ sym m, (sym, m) ∈ transitionsOf lb (transitive_closure lb lr seed) ∧
        (processOne lb lr seed ks idx).2.kernels.getD i [] = kernelOfGroup m) := by
  obtain ⟨hks, hdq, hnd, hit, hix, hred, hpr, hnew⟩ :=
    addTransitions_spec (transitionsOf lb (transitive_closure lb lr seed)) ks
      ⟨idx, transitive_closure lb lr seed, [], [], []⟩
  refine ⟨hix, hit, rfl, hks, hdq, hnd, ?_, hnew⟩
  intro pr hpr'
  rcases hpr pr hpr' with h | ⟨m, hm, hb, hg⟩
  · simp at h
  · exact ⟨m, hm, hb, hg⟩

theorem kernelOfGroup_ok {L : Type} (items : List (Item L))
    (e : Symbol × List (Item Nil × L)) (h : GroupOk items e) :
    kernelOfGroup e.2 ≠ [] ∧
    ∀ it ∈ kernelOfGroup e.2, 1 ≤ it.index ∧ it.index ≤ it.production.symbols.length ∧
      ∃ src ∈ items, src.production.symbols[src.index]? = some e.1 ∧
        it.production = src.production ∧ it.index = src.index + 1 := by
  obtain ⟨hne, -, hprov⟩ := h
  constructor
  · intro hh
    exact hne (List.map_eq_nil_iff.mp hh)
  · intro it hit
    obtain ⟨kv, hkv, rfl⟩ := List.mem_map.mp hit
    obtain ⟨src, hsrc, ha, hb, hc⟩ := hprov kv hkv
    obtain ⟨hlt, -⟩ := List.getElem?_eq_some_iff.mp ha
    refine ⟨by simp [Item.with_lookahead, hc], ?_, src, hsrc, ha, ?_, ?_⟩
    · show kv.1.index ≤ kv.1.production.symbols.length
      rw [hb, hc]
      omega
    · exact hb
    · exact hc

/-! ### Preservation of the main loop invariant -/

theorem loopStep_invA {L : Type} [DecidableEq L] (lb : LookaheadBuild L) (lr : LR L)
    (st : BuildSt L) (seed : List (Item L)) (ks1 : KernelSet L)
    (hI : LoopInvA lb lr st) (hnext : st.ks.next = some (seed, ks1)) :
    LoopInvA lb lr (loopStep lb lr seed ks1 st) := by
  obtain ⟨hnd, hdq, hlen, hconf, hstates, htargets, hchar⟩ := hI
  obtain ⟨hdlt, hseed, hk1k, hk1d⟩ := next_some st.ks seed ks1 hnext
  obtain ⟨hix, hit, hred, ⟨t, hkext⟩, hdq2, hnd2, hpr, hnew⟩ :=
    processOne_spec lb lr seed ks1 st.states.length
  have hkext' : (processOne lb lr seed ks1 st.states.length).2.kernels
      = st.ks.kernels ++ t := by rw [hkext, hk1k]
  have hklen : st.ks.kernels.length
      ≤ (processOne lb lr seed ks1 st.states.length).2.kernels.length := by
    rw [hkext']
    simp
  have hgetDold : ∀ j, j < st.ks.kernels.length →
      (processOne lb lr seed ks1 st.states.length).2.kernels.getD j []
        = st.ks.kernels.getD j [] := by
    intro j hj
    rw [hkext', List.getD_append _ _ _ _ hj]
  have hstep : loopStep lb lr seed ks1 st
      = ⟨(processOne lb lr seed ks1 st.states.length).2,
         st.states ++ [(processOne lb lr seed ks1 st.states.length).1],
         st.conflicts ++ lb.conflicts (processOne lb lr seed ks1 st.states.length).1⟩ := rfl
  rw [hstep]
  refine ⟨?_, ?_, ?_, ?_, ?_, ?_, ?_⟩
  · -- registry duplicate-free
    exact hnd2 (by rwa [hk1k])
  · -- the cursor stays within the registry
    show (processOne lb lr seed ks1 st.states.length).2.dequeued
      ≤ (processOne lb lr seed ks1 st.states.length).2.kernels.length
    rw [hdq2, hk1d]
    omega
  · -- one more state, one more dequeued kernel
    show (st.states ++ [(processOne lb lr seed ks1 st.states.length).1]).length
      = (processOne lb lr seed ks1 st.states.length).2.dequeued
    rw [List.length_append, hdq2, hk1d]
    simpa using hlen
  · -- conflicts accumulate state by state
    show st.conflicts ++ lb.conflicts (processOne lb lr seed ks1 st.states.length).1
      = (st.states ++ [(processOne lb lr seed ks1 st.states.length).1]).flatMap lb.conflicts
    rw [List.flatMap_append, ← hconf]
    simp
  · -- each state is the closure of its registered kernel
    intro i hi
    have hi' : i < st.states.length + 1 := by simpa using hi
    by_cases hcase : i < st.states.length
    · have hget : (st.states ++ [(processOne lb lr seed ks1 st.states.length).1]).get ⟨i, hi⟩
          = st.states.get ⟨i, hcase⟩ := by
        simp [List.get_eq_getElem, List.getElem_append_left hcase]
      obtain ⟨h1, h2, h3⟩ := hstates i hcase
      rw [hget]
      refine ⟨h1, ?_, h3⟩
      rw [h2, hgetDold i (by omega)]
    · have hieq : i = st.states.length := by omega
      have hget : (st.states ++ [(processOne lb lr seed ks1 st.states.length).1]).get ⟨i, hi⟩
          = (processOne lb lr seed ks1 st.states.length).1 := by
        simp [List.get_eq_getElem]
        rw [List.getElem_concat_length _ _ _ hieq]
      rw [hget]
      refine ⟨by rw [hix, hieq], ?_, ?_⟩
      · rw [hit, hieq, hgetDold st.states.length (by omega), hlen, ← hseed]
      · rw [hred, hit]
  · -- every transition target is a registered shifted kernel
    intro s hs pr hpr'
    rcases List.mem_append.mp hs with hs1 | hs2
    · obtain ⟨hb, hne, hsh⟩ := htargets s hs1 pr hpr'
      refine ⟨?_, ?_, ?_⟩
      · show pr.2 < (processOne lb lr seed ks1 st.states.length).2.kernels.length
        omega
      · rw [hgetDold pr.2 hb]; exact hne
      · rw [hgetDold pr.2 hb]; exact hsh
    · rw [List.mem_singleton] at hs2
      subst hs2
      obtain ⟨m, ⟨sym, hmem⟩, hb, hg⟩ := hpr pr hpr'
      obtain ⟨hkne, hkall⟩ :=
        kernelOfGroup_ok (transitive_closure lb lr seed) (sym, m)
          (transitionsOf_groupOk lb (transitive_closure lb lr seed) (sym, m) hmem)
      refine ⟨hb, ?_, ?_⟩
      · rw [hg]; exact hkne
      · rw [hg]
        intro it hit'
        exact (hkall it hit').1
  · -- every registered kernel other than 0 is shifted and non-empty
    intro i hi hpos
    by_cases hcase : i < st.ks.kernels.length
    · obtain ⟨h1, h2⟩ := hchar i hcase hpos
      rw [hgetDold i hcase]
      exact ⟨h1, h2⟩
    · obtain ⟨sym, m, hmem, hget⟩ := hnew i hi (by rw [hk1k]; omega)
      obtain ⟨hkne, hkall⟩ :=
        kernelOfGroup_ok (transitive_closure lb lr seed) (sym, m)
          (transitionsOf_groupOk lb (transitive_closure lb lr seed) (sym, m) hmem)
      rw [hget]
      exact ⟨hkne, fun it hit' => (hkall it hit').1⟩

theorem loopStep_kernels {L : Type} [DecidableEq L] (lb : LookaheadBuild L) (lr : LR L)
    (st : BuildSt L) (seed : List (Item L)) (ks1 : KernelSet L)
    (hnext : st.ks.next = some (seed, ks1)) :
    ∃ t, (loopStep lb lr seed ks1 st).ks.kernels = st.ks.kernels ++ t := by
  obtain ⟨-, -, hk1k, -⟩ := next_some st.ks seed ks1 hnext
  obtain ⟨-, -, -, ⟨t, hkext⟩, -⟩ := processOne_spec lb lr seed ks1 st.states.length
  exact ⟨t, by show (processOne lb lr seed ks1 st.states.length).2.kernels = _
               rw [hkext, hk1k]⟩

theorem build_loop_inv {L : Type} [DecidableEq L] (lb : LookaheadBuild L) (lr : LR L)
    (budget : Option Nat) :
    ∀ (fuel : Nat) (st st' : BuildSt L), LoopInvA lb lr st →
      build_loop lb lr budget fuel st = some st' →
      LoopInvA lb lr st' ∧ (∃ t, st'.ks.kernels = st.ks.kernels ++ t) ∧
      (st'.ks.next = none ∨ stop_after budget st'.conflicts.length = true) := by
  intro fuel
  induction fuel with
  | zero =>
    intro st st' hI h
    rw [build_loop] at h
    cases hn : st.ks.next with
    | none =>
      rw [hn] at h
      obtain rfl : st = st' := by injection h
      exact ⟨hI, ⟨[], by simp⟩, Or.inl hn⟩
    | some p =>
      rw [hn] at h
      simp at h
  | succ n ih =>
    intro st st' hI h
    rw [build_loop] at h
    cases hn : st.ks.next with
    | none =>
      rw [hn] at h
      obtain rfl : st = st' := by injection h
      exact ⟨hI, ⟨[], by simp⟩, Or.inl hn⟩
    | some p =>
      obtain ⟨seed, ks1⟩ := p
      rw [hn] at h
      have h2 : (if (lr.permit_early_stop
            && stop_after budget (loopStep lb lr seed ks1 st).conflicts.length) = true then
          some (loopStep lb lr seed ks1 st)
        else build_loop lb lr budget n (loopStep lb lr seed ks1 st)) = some st' := h
      by_cases hstop : (lr.permit_early_stop
          && stop_after budget (loopStep lb lr seed ks1 st).conflicts.length) = true
      · rw [if_pos hstop] at h2
        obtain rfl : loopStep lb lr seed ks1 st = st' := by injection h2
        exact ⟨loopStep_invA lb lr st seed ks1 hI hn,
               loopStep_kernels lb lr st seed ks1 hn,
               Or.inr (Bool.and_eq_true_iff.mp hstop).2⟩
      · rw [if_neg hstop] at h2
        obtain ⟨hI2, ⟨t2, ht2⟩, hexit⟩ :=
          ih (loopStep lb lr seed ks1 st) st' (loopStep_invA lb lr st seed ks1 hI hn) h2
        obtain ⟨t1, ht1⟩ := loopStep_kernels lb lr st seed ks1 hn
        exact ⟨hI2, ⟨t1 ++ t2, by rw [ht2, ht1, List.append_assoc]⟩, hexit⟩

theorem initial_invA {L : Type} [DecidableEq L] (lb : LookaheadBuild L) (lr : LR L) :
    LoopInvA lb lr ⟨(KernelSet.add_state ⟨[], 0⟩ (startKernelOf lr)).2, [], []⟩ := by
  have hks : (KernelSet.add_state (⟨[], 0⟩ : KernelSet L) (startKernelOf lr)).2
      = ⟨[startKernelOf lr], 0⟩ := rfl
  rw [hks]
  refine ⟨List.nodup_singleton _, by simp, rfl, rfl, ?_, ?_, ?_⟩
  · intro i h
    simp at h
  · intro s hs
    simp at hs
  · intro i h1 h2
    simp at h1
    omega

theorem build_states_inv {L : Type} [DecidableEq L] (lb : LookaheadBuild L) (lr : LR L)
    (budget : Option Nat) (fuel : Nat) (r : BuildResult L)
    (h : build_states lb lr budget fuel = some r) :
    ∃ st : BuildSt L, LoopInvA lb lr st ∧
      0 < st.ks.kernels.length ∧ st.ks.kernels.getD 0 [] = startKernelOf lr ∧
      (st.ks.next = none ∨ stop_after budget st.conflicts.length = true) ∧
      (∀ sts, r = BuildResult.ok sts → sts = st.states ∧ st.conflicts = []) ∧
      (∀ e, r = BuildResult.err e →
        e.states = st.states ∧ e.conflicts = st.conflicts ∧ st.conflicts ≠ []) := by
  unfold build_states at h
  cases hb : build_loop lb lr budget fuel
      ⟨(KernelSet.add_state ⟨[], 0⟩ (startKernelOf lr)).2, [], []⟩ with
  | none => rw [hb] at h; simp at h
  | some st =>
    rw [hb] at h
    have h2 : (if st.conflicts.isEmpty = true then some (BuildResult.ok st.states)
        else some (BuildResult.err ⟨st.states, st.conflicts⟩)) = some r := h
    obtain ⟨hI, ⟨t, ht⟩, hexit⟩ :=
      build_loop_inv lb lr budget fuel _ st (initial_invA lb lr) hb
    have hks0 : (KernelSet.add_state (⟨[], 0⟩ : KernelSet L) (startKernelOf lr)).2
        = ⟨[startKernelOf lr], 0⟩ := rfl
    have hkernels : st.ks.kernels = [startKernelOf lr] ++ t := by
      rw [ht, hks0]
    refine ⟨st, hI, ?_, ?_, hexit, ?_, ?_⟩
    · rw [hkernels]; simp
    · rw [hkernels]; rfl
    · intro sts hsts
      by_cases hc : st.conflicts.isEmpty = true
      · rw [if_pos hc] at h2
        obtain h3 : BuildResult.ok st.states = r := by injection h2
        rw [← h3] at hsts
        obtain rfl : sts = st.states := by injection hsts with h4; exact h4.symm
        exact ⟨rfl, List.isEmpty_iff.mp hc⟩
      · rw [if_neg hc] at h2
        obtain h3 : BuildResult.err ⟨st.states, st.conflicts⟩ = r := by injection h2
        rw [← h3] at hsts
        cases hsts
    · intro e he
      by_cases hc : st.conflicts.isEmpty = true
      · rw [if_pos hc] at h2
        obtain h3 : BuildResult.ok st.states = r := by injection h2
        rw [← h3] at he
        cases he
      · rw [if_neg hc] at h2
        obtain h3 : BuildResult.err ⟨st.states, st.conflicts⟩ = r := by injection h2
        rw [← h3] at he
        obtain rfl : e = ⟨st.states, st.conflicts⟩ := by injection he with h4; exact h4.symm
        exact ⟨rfl, rfl, fun hnil => by rw [hnil] at hc; simp at hc⟩

theorem ok_all_expanded {L : Type} [DecidableEq L] (lb : LookaheadBuild L) (lr : LR L)
    (budget : Option Nat) (st : BuildSt L) (hI : LoopInvA lb lr st)
    (hc : st.conflicts = [])
    (hexit : st.ks.next = none ∨ stop_after budget st.conflicts.length = true) :
    st.states.length = st.ks.kernels.length := by
  obtain ⟨-, hdq, hlen, -, -, -, -⟩ := hI
  rcases hexit with h | h
  · have := next_none st.ks h
    omega
  · rw [hc] at h
    cases budget with
    | none => simp [stop_after] at h
    | some b => simp [stop_after] at h

/-- C3: the builder fails exactly when a conflict was recorded: conflicts
accumulate state by state across the whole loop (the final list is the
concatenation of the per-state conflicts), an `ok` result means that
concatenation is empty, and an `err` result carries the partial state
vector together with the complete accumulated conflict list, which is
non-empty. -/
theorem claim_C3 {L : Type} [DecidableEq L] (lb : LookaheadBuild L) (lr : LR L)
    (budget : Option Nat) (fuel : Nat) (r : BuildResult L)
    (h : build_states lb lr budget fuel = some r) :
    (∀ sts, r = BuildResult.ok sts → sts.flatMap lb.conflicts = []) ∧
    (∀ e, r = BuildResult.err e →
      e.conflicts = e.states.flatMap lb.conflicts ∧ e.conflicts ≠ []) := by
  obtain ⟨st, hI, -, -, -, hok, herr⟩ := build_states_inv lb lr budget fuel r h
  obtain ⟨-, -, -, hconf, -, -, -⟩ := hI
  constructor
  · intro sts hsts
    obtain ⟨rfl, hc⟩ := hok sts hsts
    rw [← hconf]
    exact hc
  · intro e he
    obtain ⟨hes, hec, hnil⟩ := herr e he
    refine ⟨?_, by rw [hec]; exact hnil⟩
    rw [hec, hes, ← hconf]

/-- Witness for C3 on the empty grammar: the build returns one
conflict-free state. -/
theorem claim_C3_witness :
    (∀ sts, (BuildResult.ok [⟨0, [], [], [], []⟩] : BuildResult Nil) = BuildResult.ok sts →
      sts.flatMap nilLB.conflicts = []) ∧
    (∀ e, (BuildResult.ok [⟨0, [], [], [], []⟩] : BuildResult Nil) = BuildResult.err e →
      e.conflicts = e.states.flatMap nilLB.conflicts ∧ e.conflicts ≠ []) :=
  claim_C3 nilLB (LR.new ⟨[]⟩ 0 Nil.mk) none 5
    (BuildResult.ok [⟨0, [], [], [], []⟩]) (by decide)

/-! ### Lookup characterization of the successor multimap -/

theorem lawCmp_cmpSym : LawCmp cmpSym := by
  constructor
  · intro a b
    exact lawCmp_natCompare.swap_eq (symEnc a) (symEnc b)
  · intro a b c hab hbc
    exact lawCmp_natCompare.lt_trans hab hbc
  · intro a b c hab
    exact lawCmp_natCompare.congr_left (symEnc c) hab

theorem innerLookup_none {L : Type} (k : Item Nil) (m : List (Item Nil × L))
    (h : ∀ kv ∈ m, kv.1 ≠ k) : innerLookup k m = none := by
  unfold innerLookup
  have hf : m.find? (fun kv => kv.1 == k) = none := by
    rw [List.find?_eq_none]
    intro kv hkv
    simp only [beq_iff_eq]
    exact h kv hkv
  rw [hf]
  rfl

theorem innerLookup_cons_self {L : Type} (k : Item Nil) (v : L)
    (rest : List (Item Nil × L)) : innerLookup k ((k, v) :: rest) = some v := by
  unfold innerLookup
  rw [List.find?_cons_of_pos _ (by simp)]
  rfl

theorem innerLookup_cons_ne {L : Type} (k k' : Item Nil) (v : L)
    (rest : List (Item Nil × L)) (h : k' ≠ k) :
    innerLookup k ((k', v) :: rest) = innerLookup k rest := by
  unfold innerLookup
  rw [List.find?_cons_of_neg _ (by simp [h])]

theorem outerLookup_cons_self {L : Type} (sym : Symbol) (m : List (Item Nil × L))
    (rest : List (Symbol × List (Item Nil × L))) :
    outerLookup sym ((sym, m) :: rest) = some m := by
  unfold outerLookup
  rw [List.find?_cons_of_pos _ (by simp)]
  rfl

theorem outerLookup_cons_ne {L : Type} (sym sym' : Symbol) (m : List (Item Nil × L))
    (rest : List (Symbol × List (Item Nil × L))) (h : sym' ≠ sym) :
    outerLookup sym ((sym', m) :: rest) = outerLookup sym rest := by
  unfold outerLookup
  rw [List.find?_cons_of_neg _ (by simp [h])]

theorem innerLookup_insert_self {L : Type} (lb : LookaheadBuild L) (k : Item Nil) (la : L) :
    ∀ (m : List (Item Nil × L)),
      m.Pairwise (fun a b => cmpLR0 a.1 b.1 = Ordering.lt) →
      innerLookup k (innerInsert lb k la m)
        = some (lb.mergeL ((innerLookup k m).getD lb.defaultL) la) := by
  intro m
  induction m with
  | nil =>
    intro _
    rw [innerInsert, innerLookup_cons_self]
    rfl
  | cons e rest ih =>
    intro hs
    obtain ⟨k', v'⟩ := e
    obtain ⟨hk', hrest⟩ := List.pairwise_cons.mp hs
    cases hc : cmpLR0 k k' with
    | lt =>
      have hne : k' ≠ k := by
        intro h
        rw [h, (cmpLR0_eq_iff k k).mpr rfl] at hc
        cases hc
      have hnone : innerLookup k ((k', v') :: rest) = none := by
        apply innerLookup_none
        intro kv hkv
        rcases List.mem_cons.mp hkv with heq | h2
        · rw [heq]
          exact hne
        · intro h3
          have h4 := hk' kv h2
          rw [h3] at h4
          have h5 := lawCmp_cmpLR0.lt_trans hc h4
          rw [(cmpLR0_eq_iff k k).mpr rfl] at h5
          cases h5
      have hres : innerInsert lb k la ((k', v') :: rest)
          = (k, lb.mergeL lb.defaultL la) :: (k', v') :: rest := by
        rw [innerInsert, hc]
      rw [hres, innerLookup_cons_self, hnone]
      rfl
    | eq =>
      have hkk : k = k' := (cmpLR0_eq_iff k k').mp hc
      subst hkk
      have hres : innerInsert lb k la ((k, v') :: rest)
          = (k, lb.mergeL v' la) :: rest := by
        rw [innerInsert, hc]
      rw [hres, innerLookup_cons_self, innerLookup_cons_self]
      rfl
    | gt =>
      have hne : k' ≠ k := by
        intro h
        rw [h, (cmpLR0_eq_iff k k).mpr rfl] at hc
        cases hc
      have hres : innerInsert lb k la ((k', v') :: rest)
          = (k', v') :: innerInsert lb k la rest := by
        rw [innerInsert, hc]
      rw [hres, innerLookup_cons_ne k k' v' _ hne, ih hrest,
        innerLookup_cons_ne k k' v' rest hne]

theorem innerLookup_insert_other {L : Type} (lb : LookaheadBuild L) (k k2 : Item Nil)
    (la : L) (hne : k ≠ k2) :
    ∀ (m : List (Item Nil × L)),
      innerLookup k2 (innerInsert lb k la m) = innerLookup k2 m := by
  intro m
  induction m with
  | nil =>
    rw [innerInsert, innerLookup_cons_ne k2 k _ _ hne]
  | cons e rest ih =>
    obtain ⟨k', v'⟩ := e
    cases hc : cmpLR0 k k' with
    | lt =>
      have hres : innerInsert lb k la ((k', v') :: rest)
          = (k, lb.mergeL lb.defaultL la) :: (k', v') :: rest := by
        rw [innerInsert, hc]
      rw [hres, innerLookup_cons_ne k2 k _ _ hne]
    | eq =>
      have hkk : k = k' := (cmpLR0_eq_iff k k').mp hc
      have hne2 : k' ≠ k2 := by
        rw [← hkk]
        exact hne
      have hres : innerInsert lb k la ((k', v') :: rest)
          = (k', lb.mergeL v' la) :: rest := by
        rw [innerInsert, hc]
      rw [hres, innerLookup_cons_ne k2 k' _ _ hne2,
        innerLookup_cons_ne k2 k' v' rest hne2]
    | gt =>
      have hres : innerInsert lb k la ((k', v') :: rest)
          = (k', v') :: innerInsert lb k la rest := by
        rw [innerInsert, hc]
      by_cases hk2 : k' = k2
      · subst hk2
        rw [hres, innerLookup_cons_self, innerLookup_cons_self]
      · rw [hres, innerLookup_cons_ne k2 k' v' _ hk2, ih,
          innerLookup_cons_ne k2 k' v' rest hk2]

theorem outerLookup_insert_self {L : Type} (lb : LookaheadBuild L) (sym : Symbol)
    (k : Item Nil) (la : L) :
    ∀ (mm : List (Symbol × List (Item Nil × L))),
      mm.Pairwise (fun a b => cmpSym a.1 b.1 = Ordering.lt) →
      outerLookup sym (outerInsert lb sym k la mm)
        = some (innerInsert lb k la ((outerLookup sym mm).getD [])) := by
  intro mm
  induction mm with
  | nil =>
    intro _
    rw [outerInsert, outerLookup_cons_self]
    rfl
  | cons e rest ih =>
    intro hs
    obtain ⟨s', m⟩ := e
    obtain ⟨hk', hrest⟩ := List.pairwise_cons.mp hs
    have hnone0 : ∀ e2 ∈ rest, e2.1 ≠ sym → True := fun _ _ _ => trivial
    cases hc : cmpSym sym s' with
    | lt =>
      have hne : s' ≠ sym := by
        intro h
        rw [h, (cmpSym_eq_iff sym sym).mpr rfl] at hc
        cases hc
      have hnone : outerLookup sym ((s', m) :: rest) = none := by
        unfold outerLookup
        have hf : ((s', m) :: rest).find? (fun e => e.1 == sym) = none := by
          rw [List.find?_eq_none]
          intro e2 he2
          simp only [beq_iff_eq]
          rcases List.mem_cons.mp he2 with heq | h2
          · rw [heq]
            exact hne
          · intro h3
            have h4 := hk' e2 h2
            rw [h3] at h4
            have h5 := lawCmp_cmpSym.lt_trans hc h4
            rw [(cmpSym_eq_iff sym sym).mpr rfl] at h5
            cases h5
        rw [hf]
        rfl
      have hres : outerInsert lb sym k la ((s', m) :: rest)
          = (sym, innerInsert lb k la []) :: (s', m) :: rest := by
        rw [outerInsert, hc]
      rw [hres, outerLookup_cons_self, hnone]
      rfl
    | eq =>
      have hkk : sym = s' := (cmpSym_eq_iff sym s').mp hc
      subst hkk
      have hres : outerInsert lb sym k la ((sym, m) :: rest)
          = (sym, innerInsert lb k la m) :: rest := by
        rw [outerInsert, hc]
      rw [hres, outerLookup_cons_self, outerLookup_cons_self]
      rfl
    | gt =>
      have hne : s' ≠ sym := by
        intro h
        rw [h, (cmpSym_eq_iff sym sym).mpr rfl] at hc
        cases hc
      have hres : outerInsert lb sym k la ((s', m) :: rest)
          = (s', m) :: outerInsert lb sym k la rest := by
        rw [outerInsert, hc]
      rw [hres, outerLookup_cons_ne sym s' m _ hne, ih hrest,
        outerLookup_cons_ne sym s' m rest hne]

theorem outerLookup_insert_other {L : Type} (lb : LookaheadBuild L) (sym sym2 : Symbol)
    (k : Item Nil) (la : L) (hne : sym ≠ sym2) :
    ∀ (mm : List (Symbol × List (Item Nil × L))),
      outerLookup sym2 (outerInsert lb sym k la mm) = outerLookup sym2 mm := by
  intro mm
  induction mm with
  | nil =>
    rw [outerInsert, outerLookup_cons_ne sym2 sym _ _ hne]
  | cons e rest ih =>
    obtain ⟨s', m⟩ := e
    cases hc : cmpSym sym s' with
    | lt =>
      have hres : outerInsert lb sym k la ((s', m) :: rest)
          = (sym, innerInsert lb k la []) :: (s', m) :: rest := by
        rw [outerInsert, hc]
      rw [hres, outerLookup_cons_ne sym2 sym _ _ hne]
    | eq =>
      have hkk : sym = s' := (cmpSym_eq_iff sym s').mp hc
      have hne2 : s' ≠ sym2 := by
        rw [← hkk]
        exact hne
      have hres : outerInsert lb sym k la ((s', m) :: rest)
          = (s', innerInsert lb k la m) :: rest := by
        rw [outerInsert, hc]
      rw [hres, outerLookup_cons_ne sym2 s' _ _ hne2,
        outerLookup_cons_ne sym2 s' m rest hne2]
    | gt =>
      have hres : outerInsert lb sym k la ((s', m) :: rest)
          = (s', m) :: outerInsert lb sym k la rest := by
        rw [outerInsert, hc]
      by_cases hk2 : s' = sym2
      · subst hk2
        rw [hres, outerLookup_cons_self, outerLookup_cons_self]
      · rw [hres, outerLookup_cons_ne sym2 s' m _ hk2, ih,
          outerLookup_cons_ne sym2 s' m rest hk2]

theorem outerInsert_sorted {L : Type} (lb : LookaheadBuild L) (sym : Symbol)
    (k : Item Nil) (la : L) :
    ∀ (mm : List (Symbol × List (Item Nil × L))),
      mm.Pairwise (fun a b => cmpSym a.1 b.1 = Ordering.lt) →
      (outerInsert lb sym k la mm).Pairwise (fun a b => cmpSym a.1 b.1 = Ordering.lt) := by
  intro mm
  induction mm with
  | nil =>
    intro _
    simp [outerInsert]
  | cons e rest ih =>
    intro hs
    obtain ⟨s', m⟩ := e
    obtain ⟨hk', hrest⟩ := List.pairwise_cons.mp hs
    rw [outerInsert]
    cases hc : cmpSym sym s' with
    | lt =>
      refine List.pairwise_cons.mpr ⟨?_, hs⟩
      intro b hb
      rcases List.mem_cons.mp hb with heq | hb'
      · rw [heq]
        exact hc
      · exact lawCmp_cmpSym.lt_trans hc (hk' b hb')
    | eq =>
      exact List.pairwise_cons.mpr ⟨fun b hb => hk' b hb, hrest⟩
    | gt =>
      refine List.pairwise_cons.mpr ⟨?_, ih hrest⟩
      intro b hb
      rcases outerInsert_entries lb sym k la rest b hb with h1 | ⟨h1, -⟩
      · exact hk' b h1
      · rw [h1]
        have hsw := lawCmp_cmpSym.swap_eq sym s'
        rw [hc] at hsw
        exact hsw

theorem mmSorted_outerInsert {L : Type} (lb : LookaheadBuild L) (sym : Symbol)
    (k : Item Nil) (la : L) (mm : List (Symbol × List (Item Nil × L)))
    (h : MMSorted mm) : MMSorted (outerInsert lb sym k la mm) := by
  obtain ⟨h1, h2⟩ := h
  refine ⟨outerInsert_sorted lb sym k la mm h1, ?_⟩
  intro e he
  rcases outerInsert_entries lb sym k la mm e he with hm | ⟨-, h3 | ⟨m', hm', h3⟩⟩
  · exact h2 e hm
  · rw [h3]
    exact innerInsert_sorted lb k la [] (by simp)
  · rw [h3]
    exact innerInsert_sorted lb k la m' (h2 (e.1, m') hm')

theorem mmSorted_fold {L : Type} [DecidableEq L] (lb : LookaheadBuild L) :
    ∀ (sis : List (Symbol × Item L)) (mm : List (Symbol × List (Item Nil × L))),
      MMSorted mm →
      MMSorted (sis.foldl (fun mm si =>
        outerInsert lb si.1 (Item.lr0 si.2.production si.2.index) si.2.lookahead mm) mm) := by
  intro sis
  induction sis with
  | nil =>
    intro mm h
    exact h
  | cons si rest ih =>
    intro mm h
    rw [List.foldl_cons]
    exact ih _ (mmSorted_outerInsert lb si.1 _ si.2.lookahead mm h)

theorem transitionsOf_mmSorted {L : Type} [DecidableEq L] (lb : LookaheadBuild L)
    (items : List (Item L)) : MMSorted (transitionsOf lb items) := by
  unfold transitionsOf
  exact mmSorted_fold lb _ [] ⟨List.Pairwise.nil, by simp⟩

theorem lookupBoth_eq {L : Type} (mm : List (Symbol × List (Item Nil × L))) (sym : Symbol)
    (k : Item Nil) : lookupBoth mm sym k = innerLookup k ((outerLookup sym mm).getD []) := by
  unfold lookupBoth
  cases h : outerLookup sym mm with
  | none => rfl
  | some m => rfl

theorem mmSorted_lookup {L : Type} (mm : List (Symbol × List (Item Nil × L)))
    (h : MMSorted mm) (sym : Symbol) :
    ((outerLookup sym mm).getD []).Pairwise (fun a b => cmpLR0 a.1 b.1 = Ordering.lt) := by
  cases hf : outerLookup sym mm with
  | none => simp
  | some m =>
    unfold outerLookup at hf
    rw [Option.map_eq_some'] at hf
    obtain ⟨e, he, hme⟩ := hf
    have hmem := List.mem_of_find?_eq_some he
    rw [Option.getD_some, ← hme]
    exact h.2 e hmem

theorem contribsOf_cons {L : Type} [DecidableEq L] (si : Symbol × Item L)
    (rest : List (Symbol × Item L)) (sym : Symbol) (k : Item Nil) :
    contribsOf (si :: rest) sym k
      = if si.1 = sym ∧ Item.lr0 si.2.production si.2.index = k
        then si.2.lookahead :: contribsOf rest sym k
        else contribsOf rest sym k := by
  by_cases h : si.1 = sym ∧ Item.lr0 si.2.production si.2.index = k
  · rw [if_pos h]
    unfold contribsOf
    rw [List.filter_cons, if_pos (by simp [h.1, h.2]), List.map_cons]
  · rw [if_neg h]
    unfold contribsOf
    rw [List.filter_cons,
      if_neg (by simp only [Bool.and_eq_true, beq_iff_eq]; exact h)]

theorem fold_lookup {L : Type} [DecidableEq L] (lb : LookaheadBuild L) :
    ∀ (sis : List (Symbol × Item L)) (mm : List (Symbol × List (Item Nil × L))),
      MMSorted mm → ∀ (sym : Symbol) (k : Item Nil),
      lookupBoth (sis.foldl (fun mm si =>
          outerInsert lb si.1 (Item.lr0 si.2.production si.2.index) si.2.lookahead mm) mm)
          sym k
        = if contribsOf sis sym k = [] then lookupBoth mm sym k
          else some (List.foldl lb.mergeL ((lookupBoth mm sym k).getD lb.defaultL)
              (contribsOf sis sym k)) := by
  intro sis
  induction sis with
  | nil =>
    intro mm hmm sym k
    simp [contribsOf]
  | cons si rest ih =>
    intro mm hmm sym k
    simp only [List.foldl_cons]
    rw [contribsOf_cons,
      ih (outerInsert lb si.1 (Item.lr0 si.2.production si.2.index) si.2.lookahead mm)
        (mmSorted_outerInsert lb si.1 _ si.2.lookahead mm hmm) sym k]
    by_cases hcond : si.1 = sym ∧ Item.lr0 si.2.production si.2.index = k
    · rw [if_pos hcond]
      obtain ⟨h1, h2⟩ := hcond
      have hstep : lookupBoth (outerInsert lb si.1 (Item.lr0 si.2.production si.2.index)
            si.2.lookahead mm) sym k
          = some (lb.mergeL ((lookupBoth mm sym k).getD lb.defaultL) si.2.lookahead) := by
        rw [h1, h2, lookupBoth_eq, outerLookup_insert_self lb sym k si.2.lookahead mm hmm.1,
          Option.getD_some,
          innerLookup_insert_self lb k si.2.lookahead ((outerLookup sym mm).getD [])
            (mmSorted_lookup mm hmm sym),
          lookupBoth_eq]
      rw [hstep, if_neg (List.cons_ne_nil _ _)]
      by_cases hr : contribsOf rest sym k = []
      · rw [if_pos hr, hr]
        rfl
      · rw [if_neg hr, Option.getD_some, List.foldl_cons]
    · rw [if_neg hcond]
      have hstep : lookupBoth (outerInsert lb si.1 (Item.lr0 si.2.production si.2.index)
            si.2.lookahead mm) sym k = lookupBoth mm sym k := by
        by_cases h1 : si.1 = sym
        · have h2 : Item.lr0 si.2.production si.2.index ≠ k := fun h => hcond ⟨h1, h⟩
          rw [h1, lookupBoth_eq,
            outerLookup_insert_self lb sym (Item.lr0 si.2.production si.2.index)
              si.2.lookahead mm hmm.1,
            Option.getD_some,
            innerLookup_insert_other lb (Item.lr0 si.2.production si.2.index) k
              si.2.lookahead h2 ((outerLookup sym mm).getD []),
            lookupBoth_eq]
        · rw [lookupBoth_eq,
            outerLookup_insert_other lb si.1 sym (Item.lr0 si.2.production si.2.index)
              si.2.lookahead h1 mm,
            lookupBoth_eq]
      rw [hstep]

theorem transitionsOf_lookup {L : Type} [DecidableEq L] (lb : LookaheadBuild L)
    (items : List (Item L)) (sym : Symbol) (k : Item Nil) :
    lookupBoth (transitionsOf lb items) sym k
      = if contribsOf (items.filterMap Item.shifted_item) sym k = [] then none
        else some (List.foldl lb.mergeL lb.defaultL
            (contribsOf (items.filterMap Item.shifted_item) sym k)) := by
  unfold transitionsOf
  rw [fold_lookup lb (items.filterMap Item.shifted_item) []
    ⟨List.Pairwise.nil, by simp⟩ sym k]
  rfl

theorem cmpItem_of_cmpLR0_lt {L : Type} (encL : L → List Nat) (a b : Item Nil)
    (la la' : L) (h : cmpLR0 a b = Ordering.lt) :
    cmpItem encL (Item.with_lookahead a la) (Item.with_lookahead b la') = Ordering.lt := by
  have h0 : (cmpProd a.production b.production).then
      ((compare a.index b.index).then Ordering.eq) = Ordering.lt := h
  show (cmpProd a.production b.production).then
      ((compare a.index b.index).then (cmpNatList (encL la) (encL la'))) = Ordering.lt
  cases hp : cmpProd a.production b.production with
  | lt =>
    rfl
  | eq =>
    rw [hp] at h0
    have h1 : (compare a.index b.index).then Ordering.eq = Ordering.lt := h0
    cases hi : compare a.index b.index with
    | lt =>
      rfl
    | eq =>
      rw [hi] at h1
      have h2 : Ordering.eq = Ordering.lt := h1
      cases h2
    | gt =>
      rw [hi] at h1
      have h2 : Ordering.gt = Ordering.lt := h1
      cases h2
  | gt =>
    rw [hp] at h0
    have h2 : Ordering.gt = Ordering.lt := h0
    cases h2

theorem kernelOfGroup_facts {L : Type} (lb : LookaheadBuild L) (items : List (Item L))
    (e : Symbol × List (Item Nil × L)) (h : GroupOk items e) :
    (kernelOfGroup e.2).Pairwise (fun a b => cmpItem lb.encL a b = Ordering.lt) ∧
    kernelOfGroup e.2 ≠ [] ∧
    ∀ it ∈ kernelOfGroup e.2, 1 ≤ it.index := by
  obtain ⟨hne, hsort, hprov⟩ := h
  refine ⟨?_, ?_, ?_⟩
  · unfold kernelOfGroup
    rw [List.pairwise_map]
    exact hsort.imp (fun hab => cmpItem_of_cmpLR0_lt lb.encL _ _ _ _ hab)
  · unfold kernelOfGroup
    cases hm : e.2 with
    | nil => exact absurd hm hne
    | cons x xs => simp
  · intro it hit
    unfold kernelOfGroup at hit
    obtain ⟨kv, hkv, hfit⟩ := List.mem_map.mp hit
    obtain ⟨src, -, -, -, hidx⟩ := hprov kv hkv
    rw [← hfit]
    show 1 ≤ kv.1.index
    rw [hidx]
    omega

/-- C2: successor partitioning merges all shiftable items over the same
symbol with the same LR(0) core into one entry whose lookahead is the
merge-fold of every contributing lookahead (and an entry exists exactly
when some item contributes); the merge is the identity for LR(0) and set
union for LR(1); symbol groups are duplicate-free; and every shifted
kernel handed to the registry by `processOne` is a group's kernel:
strictly sorted in item order, non-empty, with all dot indices at
least 1. -/
theorem claim_C2 {L : Type} [DecidableEq L] (lb : LookaheadBuild L)
    (items : List (Item L)) (sym : Symbol) (k : Item Nil) :
    (lookupBoth (transitionsOf lb items) sym k
      = if contribsOf (items.filterMap Item.shifted_item) sym k = [] then none
        else some (List.foldl lb.mergeL lb.defaultL
            (contribsOf (items.filterMap Item.shifted_item) sym k))) ∧
    (∀ a b : Nil, nilLB.mergeL a b = a) ∧
    (∀ a b : TokenSet, tokenSetLB.mergeL a b = tsUnion a b) ∧
    (transitionsOf lb items).Pairwise (fun a b => cmpSym a.1 b.1 = Ordering.lt) ∧
    (∀ e ∈ transitionsOf lb items,
      (kernelOfGroup e.2).Pairwise (fun a b => cmpItem lb.encL a b = Ordering.lt) ∧
      kernelOfGroup e.2 ≠ [] ∧
      ∀ it ∈ kernelOfGroup e.2, 1 ≤ it.index) ∧
    (∀ (lr : LR L) (seed : List (Item L)) (ks : KernelSet L) (idx i : Nat),
      i < (processOne lb lr seed ks idx).2.kernels.length → ks.kernels.length ≤ i →
      ∃ sym' m, (sym', m) ∈ transitionsOf lb (transitive_closure lb lr seed) ∧
        (processOne lb lr seed ks idx).2.kernels.getD i [] = kernelOfGroup m) := by
  refine ⟨transitionsOf_lookup lb items sym k, ?_, ?_, (transitionsOf_mmSorted lb items).1,
    ?_, ?_⟩
  · intro a b
    cases a
    rfl
  · intro a b
    rfl
  · intro e he
    exact kernelOfGroup_facts lb items e (transitionsOf_groupOk lb items e he)
  · intro lr seed ks idx i h1 h2
    have hpo : (processOne lb lr seed ks idx).2
        = (addTransitions ks ⟨idx, transitive_closure lb lr seed, [], [], []⟩
            (transitionsOf lb (transitive_closure lb lr seed))).2 := rfl
    rw [hpo] at h1 ⊢
    obtain ⟨-, -, -, -, -, -, -, hnew⟩ := addTransitions_spec
      (transitionsOf lb (transitive_closure lb lr seed)) ks
      ⟨idx, transitive_closure lb lr seed, [], [], []⟩
    obtain ⟨sym', m, hmem, hget⟩ := hnew i h1 h2
    exact ⟨sym', m, hmem, hget⟩

/-- Witness for C2: in the closed item set of the grammar S -> a at
state 0, the single item shifts over the terminal `a` and the successor
entry carries its lookahead. -/
theorem claim_C2_witness :
    lookupBoth
        (transitionsOf tokenSetLB [(⟨⟨0, [Symbol.Terminal 0], 0⟩, 0, [0]⟩ : Item TokenSet)])
        (Symbol.Terminal 0) (Item.lr0 ⟨0, [Symbol.Terminal 0], 0⟩ 1)
      = some [0] := by
  rw [(claim_C2 tokenSetLB [(⟨⟨0, [Symbol.Terminal 0], 0⟩, 0, [0]⟩ : Item TokenSet)]
    (Symbol.Terminal 0) (Item.lr0 ⟨0, [Symbol.Terminal 0], 0⟩ 1)).1]
  decide

theorem startKernelCheck_startKernelOf {L : Type} (lr : LR L) :
    startKernelCheck (startKernelOf lr) = true := by
  unfold startKernelCheck startKernelOf LR.items
  rw [List.all_eq_true]
  intro it hit
  obtain ⟨p, -, rfl⟩ := List.mem_map.mp hit
  rfl

theorem shiftedKernelCheck_of_all {L : Type} (k : List (Item L))
    (h : ∀ it ∈ k, 1 ≤ it.index) : shiftedKernelCheck k = true := by
  unfold shiftedKernelCheck
  rw [List.all_eq_true]
  intro it hit
  have h2 := h it hit
  simp only [bne_iff_ne, ne_eq]
  omega

theorem findKernel_mem {L : Type} [DecidableEq L] :
    ∀ (l : List (List (Item L))) (k : List (Item L)), k ∈ l →
      ∃ i, findKernel k l = some i := by
  intro l k hk
  cases hf : findKernel k l with
  | none => exact absurd hk (findKernel_none l k hf)
  | some i => exact ⟨i, rfl⟩

/-- C1: registering an already-present kernel returns its existing index
without changing the registry, and in any state vector the builder
returns (the `ok` vector or the partial vector in the error) the states
are the closures, in order, of a duplicate-free list of registered
kernels — so no two distinct states have equal kernels. -/
theorem claim_C1 {L : Type} [DecidableEq L] (lb : LookaheadBuild L) (lr : LR L)
    (budget : Option Nat) (fuel : Nat) (r : BuildResult L)
    (h : build_states lb lr budget fuel = some r) :
    (∀ (ks : KernelSet L) (k : List (Item L)), k ∈ ks.kernels →
      (ks.add_state k).2 = ks ∧ ks.kernels.getD (ks.add_state k).1 [] = k) ∧
    ∀ sts, (r = BuildResult.ok sts ∨ ∃ e, r = BuildResult.err e ∧ e.states = sts) →
      ∃ kseq : List (List (Item L)), kseq.Nodup ∧ sts.length ≤ kseq.length ∧
        ∀ i (hi : i < sts.length),
          (sts.get ⟨i, hi⟩).index = i ∧
          (sts.get ⟨i, hi⟩).items = transitive_closure lb lr (kseq.getD i []) := by
  constructor
  · intro ks k hk
    obtain ⟨i, hf⟩ := findKernel_mem ks.kernels k hk
    constructor
    · show (KernelSet.add_state ks k).2 = ks
      unfold KernelSet.add_state
      rw [hf]
    · have : (KernelSet.add_state ks k).1 = i := by
        unfold KernelSet.add_state
        rw [hf]
      rw [this]
      exact (findKernel_some ks.kernels k i hf).2
  · obtain ⟨st, hI, -, -, -, hok, herr⟩ := build_states_inv lb lr budget fuel r h
    obtain ⟨hnd, hdq, hlen, -, hstates, -, -⟩ := hI
    intro sts hsts
    have hsteq : sts = st.states := by
      rcases hsts with h1 | ⟨e, h1, h2⟩
      · exact (hok sts h1).1
      · rw [← h2, (herr e h1).1]
    subst hsteq
    refine ⟨st.ks.kernels, hnd, by omega, ?_⟩
    intro i hi
    obtain ⟨h1, h2, -⟩ := hstates i hi
    exact ⟨h1, h2⟩

/-- Witness for C1: the build over the empty grammar. -/
theorem claim_C1_witness :
    (∀ (ks : KernelSet Nil) (k : List (Item Nil)), k ∈ ks.kernels →
      (ks.add_state k).2 = ks ∧ ks.kernels.getD (ks.add_state k).1 [] = k) ∧
    ∀ sts, (BuildResult.ok [(⟨0, [], [], [], []⟩ : State Nil)] = BuildResult.ok sts ∨
        ∃ e, BuildResult.ok [(⟨0, [], [], [], []⟩ : State Nil)] = BuildResult.err e ∧
          e.states = sts) →
      ∃ kseq : List (List (Item Nil)), kseq.Nodup ∧ sts.length ≤ kseq.length ∧
        ∀ i (hi : i < sts.length),
          (sts.get ⟨i, hi⟩).index = i ∧
          (sts.get ⟨i, hi⟩).items
            = transitive_closure nilLB (LR.new ⟨[]⟩ 0 Nil.mk) (kseq.getD i []) :=
  claim_C1 nilLB (LR.new ⟨[]⟩ 0 Nil.mk) none 5
    (BuildResult.ok [⟨0, [], [], [], []⟩]) (by decide)

/-- C7: the seed kernel of state 0 passes the start-kernel assertion
(all dots at 0), and every other registered kernel passes the
shifted-kernel assertion (all dots past 0); the states are the closures
of these kernels in order. -/
theorem claim_C7 {L : Type} [DecidableEq L] (lb : LookaheadBuild L) (lr : LR L)
    (budget : Option Nat) (fuel : Nat) (r : BuildResult L)
    (h : build_states lb lr budget fuel = some r) :
    startKernelCheck (startKernelOf lr) = true ∧
    ∃ kseq : List (List (Item L)), 0 < kseq.length ∧
      kseq.getD 0 [] = startKernelOf lr ∧
      (∀ i, i < kseq.length → 0 < i → shiftedKernelCheck (kseq.getD i []) = true) ∧
      ∀ sts, (r = BuildResult.ok sts ∨ ∃ e, r = BuildResult.err e ∧ e.states = sts) →
        ∀ i (hi : i < sts.length),
          (sts.get ⟨i, hi⟩).items = transitive_closure lb lr (kseq.getD i []) := by
  refine ⟨startKernelCheck_startKernelOf lr, ?_⟩
  obtain ⟨st, hI, hpos, hzro, -, hok, herr⟩ := build_states_inv lb lr budget fuel r h
  obtain ⟨-, -, -, -, hstates, -, hchar⟩ := hI
  refine ⟨st.ks.kernels, hpos, hzro, ?_, ?_⟩
  · intro i hi hipos
    exact shiftedKernelCheck_of_all _ (hchar i hi hipos).2
  · intro sts hsts
    have hsteq : sts = st.states := by
      rcases hsts with h1 | ⟨e, h1, h2⟩
      · exact (hok sts h1).1
      · rw [← h2, (herr e h1).1]
    subst hsteq
    intro i hi
    exact (hstates i hi).2.1

/-- Witness for C7: the build over the empty grammar. -/
theorem claim_C7_witness :
    startKernelCheck (startKernelOf (LR.new (⟨[]⟩ : Grammar) 0 Nil.mk)) = true ∧
    ∃ kseq : List (List (Item Nil)), 0 < kseq.length ∧
      kseq.getD 0 [] = startKernelOf (LR.new ⟨[]⟩ 0 Nil.mk) ∧
      (∀ i, i < kseq.length → 0 < i → shiftedKernelCheck (kseq.getD i []) = true) ∧
      ∀ sts, (BuildResult.ok [(⟨0, [], [], [], []⟩ : State Nil)] = BuildResult.ok sts ∨
          ∃ e, BuildResult.ok [(⟨0, [], [], [], []⟩ : State Nil)] = BuildResult.err e ∧
            e.states = sts) →
        ∀ i (hi : i < sts.length),
          (sts.get ⟨i, hi⟩).items
            = transitive_closure nilLB (LR.new ⟨[]⟩ 0 Nil.mk) (kseq.getD i []) :=
  claim_C7 nilLB (LR.new ⟨[]⟩ 0 Nil.mk) none 5
    (BuildResult.ok [⟨0, [], [], [], []⟩]) (by decide)

/-- C10: on success every shift or goto target is a valid index into the
returned state vector — the automaton graph is closed. -/
theorem claim_C10 {L : Type} [DecidableEq L] (lb : LookaheadBuild L) (lr : LR L)
    (budget : Option Nat) (fuel : Nat) (sts : List (State L))
    (h : build_states lb lr budget fuel = some (BuildResult.ok sts)) :
    ∀ s ∈ sts, (∀ pr ∈ s.shifts, pr.2 < sts.length) ∧
      (∀ pr ∈ s.gotos, pr.2 < sts.length) := by
  obtain ⟨st, hI, -, -, hexit, hok, -⟩ := build_states_inv lb lr budget fuel _ h
  obtain ⟨rfl, hc⟩ := hok sts rfl
  have hfull := ok_all_expanded lb lr budget st hI hc hexit
  obtain ⟨-, -, -, -, -, htargets, -⟩ := hI
  intro s hs
  constructor
  · intro pr hpr
    have := (htargets s hs pr (List.mem_append.mpr (Or.inl hpr))).1
    omega
  · intro pr hpr
    have := (htargets s hs pr (List.mem_append.mpr (Or.inr hpr))).1
    omega

/-- Witness for C10: in the LR(1) automaton of the grammar S -> a,
state 0's single shift edge targets state 1 < 2. -/
theorem claim_C10_witness :
    (∀ pr ∈ [((0 : Nat), (1 : Nat))], pr.2 < 2) ∧
    (∀ pr ∈ ([] : List (Nat × Nat)), pr.2 < 2) :=
  claim_C10 tokenSetLB
    { LR.new ⟨[⟨0, [Symbol.Terminal 0], 0⟩]⟩ 0 TokenSet.eof with permit_early_stop := true }
    none 10
    [⟨0, [⟨⟨0, [Symbol.Terminal 0], 0⟩, 0, [0]⟩], [(0, 1)], [], []⟩,
     ⟨1, [⟨⟨0, [Symbol.Terminal 0], 0⟩, 1, [0]⟩], [], [([0], ⟨0, [Symbol.Terminal 0], 0⟩)], []⟩]
    (by decide)
    ⟨0, [⟨⟨0, [Symbol.Terminal 0], 0⟩, 0, [0]⟩], [(0, 1)], [], []⟩
    (List.mem_cons_self _ _)

/-! ### The prefix invariant behind the recursive-ascent emitter -/

theorem ssGo_spec {L : Type} :
    ∀ (l : List (Item L)) (acc : List Symbol),
      (ssGo acc l = acc ∨ ∃ it ∈ l, ssGo acc l = itemConsumed it) ∧
      acc.length ≤ (ssGo acc l).length ∧
      ∀ it ∈ l, (itemConsumed it).length ≤ (ssGo acc l).length := by
  intro l
  induction l with
  | nil =>
    intro acc
    refine ⟨Or.inl rfl, Nat.le_refl _, ?_⟩
    intro it hit
    simp at hit
  | cons x rest ih =>
    intro acc
    have hstep : ssGo acc (x :: rest)
        = ssGo (if acc.length ≤ (itemConsumed x).length then itemConsumed x else acc)
            rest := rfl
    rw [hstep]
    by_cases hc : acc.length ≤ (itemConsumed x).length
    · rw [if_pos hc]
      obtain ⟨hm, hlen, hall⟩ := ih (itemConsumed x)
      refine ⟨?_, Nat.le_trans hc hlen, ?_⟩
      · rcases hm with h | ⟨it, hit, h⟩
        · exact Or.inr ⟨x, List.mem_cons_self _ _, h⟩
        · exact Or.inr ⟨it, List.mem_cons_of_mem _ hit, h⟩
      · intro it hit
        rcases List.mem_cons.mp hit with heq | h2
        · rw [heq]
          exact hlen
        · exact hall it h2
    · rw [if_neg hc]
      obtain ⟨hm, hlen, hall⟩ := ih acc
      push_neg at hc
      refine ⟨?_, hlen, ?_⟩
      · rcases hm with h | ⟨it, hit, h⟩
        · exact Or.inl h
        · exact Or.inr ⟨it, List.mem_cons_of_mem _ hit, h⟩
      intro it hit
      rcases List.mem_cons.mp hit with heq | h2
      · rw [heq]
        exact Nat.le_trans (Nat.le_of_lt hc) hlen
      · exact hall it h2

theorem stackSyms_facts {L : Type} (s : State L) :
    (stackSyms s = [] ∨ ∃ it ∈ s.items, stackSyms s = itemConsumed it) ∧
    ∀ it ∈ s.items, (itemConsumed it).length ≤ (stackSyms s).length := by
  have h := ssGo_spec s.items []
  exact ⟨h.1, h.2.2⟩

theorem state_suffix_facts {L : Type} (s : State L) (π : List Symbol)
    (h : ∀ it ∈ s.items, it.index ≤ π.length ∧
      itemConsumed it = π.drop (π.length - it.index)) :
    (∀ it ∈ s.items, it.index ≤ (stackSyms s).length ∧
      itemConsumed it = (stackSyms s).drop ((stackSyms s).length - it.index)) ∧
    (stackSyms s).length ≤ π.length ∧
    stackSyms s = π.drop (π.length - (stackSyms s).length) := by
  obtain ⟨hm, hall⟩ := stackSyms_facts s
  have key : ∀ (M : Nat) (idx : Nat), M ≤ π.length → idx ≤ M →
      (π.drop (π.length - M)).drop (M - idx) = π.drop (π.length - idx) := by
    intro M idx h1 h2
    rw [List.drop_drop]
    congr 1
    omega
  have hss : (stackSyms s).length ≤ π.length ∧
      stackSyms s = π.drop (π.length - (stackSyms s).length) := by
    rcases hm with h0 | ⟨it0, hit0, heq⟩
    · rw [h0]
      refine ⟨Nat.zero_le _, ?_⟩
      rw [List.length_nil, Nat.sub_zero, List.drop_length]
    · obtain ⟨hle, hcons⟩ := h it0 hit0
      have hlen0 : (itemConsumed it0).length = it0.index := by
        rw [hcons, List.length_drop]
        omega
      rw [heq, hlen0]
      exact ⟨hle, hcons⟩
  refine ⟨?_, hss⟩
  intro it hit
  obtain ⟨hle, hcons⟩ := h it hit
  have h2 : (itemConsumed it).length = it.index := by
    rw [hcons, List.length_drop]
    omega
  have hidx_le : it.index ≤ (stackSyms s).length := by
    have h1 := hall it hit
    omega
  refine ⟨hidx_le, ?_⟩
  calc itemConsumed it = π.drop (π.length - it.index) := hcons
    _ = (π.drop (π.length - (stackSyms s).length)).drop ((stackSyms s).length - it.index) :=
      (key (stackSyms s).length it.index hss.1 hidx_le).symm
    _ = (stackSyms s).drop ((stackSyms s).length - it.index) := by
      rw [← hss.2]

theorem closure_kernelPre {L : Type} [DecidableEq L] (lb : LookaheadBuild L) (lr : LR L)
    (hz : EpsZero lb) (i : Nat) (k : List (Item L)) (hk : KernelPre i k) :
    ∃ π : List Symbol, (i = 0 → π = []) ∧ (0 < i → π ≠ []) ∧
      ∀ it ∈ transitive_closure lb lr k, it.index ≤ π.length ∧
        itemConsumed it = π.drop (π.length - it.index) := by
  obtain ⟨hwf, π, h0, hpos, hitems⟩ := hk
  refine ⟨π, h0, hpos, ?_⟩
  intro it hit
  rcases tc_prov lb lr k it hit with hmem | ⟨src, hsrc⟩
  · exact hitems it hmem
  · have hz0 := hz lr src it hsrc
    constructor
    · rw [hz0]
      exact Nat.zero_le _
    · rw [hz0, Nat.sub_zero, List.drop_length]
      unfold itemConsumed
      rw [hz0, List.take_zero]

theorem kernelPre_of_group {L : Type} (items : List (Item L)) (σ : List Symbol)
    (sym : Symbol) (m : List (Item Nil × L)) (j : Nat) (hj : 0 < j)
    (hgrp : GroupOk items (sym, m))
    (hsfx : ∀ it ∈ items, it.index ≤ σ.length ∧
      itemConsumed it = σ.drop (σ.length - it.index)) :
    KernelPre j (kernelOfGroup m) := by
  obtain ⟨-, -, hprov⟩ := hgrp
  constructor
  · intro it hit
    obtain ⟨kv, hkv, hfit⟩ := List.mem_map.mp hit
    obtain ⟨src, hsrc, hsym, hp, hi⟩ := hprov kv hkv
    obtain ⟨hlt, -⟩ := List.getElem?_eq_some_iff.mp hsym
    rw [← hfit]
    show kv.1.index ≤ kv.1.production.symbols.length
    rw [hi, hp]
    omega
  · refine ⟨σ ++ [sym], ?_, ?_, ?_⟩
    · intro h0
      omega
    · intro _
      simp
    · intro it hit
      obtain ⟨kv, hkv, hfit⟩ := List.mem_map.mp hit
      obtain ⟨src, hsrc, hsym, hp, hi⟩ := hprov kv hkv
      obtain ⟨hlt, -⟩ := List.getElem?_eq_some_iff.mp hsym
      obtain ⟨hle, hcons⟩ := hsfx src hsrc
      rw [← hfit]
      have hidx : (Item.with_lookahead kv.1 kv.2).index = src.index + 1 := by
        show kv.1.index = src.index + 1
        exact hi
      constructor
      · rw [hidx, List.length_append, List.length_singleton]
        omega
      · rw [hidx]
        have hconsumed : itemConsumed (Item.with_lookahead kv.1 kv.2)
            = src.production.symbols.take (src.index + 1) := by
          unfold itemConsumed
          show kv.1.production.symbols.take kv.1.index = _
          rw [hi, hp]
        rw [hconsumed]
        have htake : src.production.symbols.take (src.index + 1)
            = src.production.symbols.take src.index ++ [sym] := by
          rw [List.take_succ, hsym]
          rfl
        rw [htake]
        have hlen2 : (σ ++ [sym]).length - (src.index + 1) = σ.length - src.index := by
          rw [List.length_append, List.length_singleton]
          omega
        rw [hlen2, List.drop_append_of_le_length
          (show σ.length - src.index ≤ σ.length by omega)]
        have hc2 : src.production.symbols.take src.index
            = σ.drop (σ.length - src.index) := by
          have h3 : itemConsumed src = σ.drop (σ.length - src.index) := hcons
          unfold itemConsumed at h3
          exact h3
        rw [hc2]

theorem kernelPre_start {L : Type} (lr : LR L) : KernelPre 0 (startKernelOf lr) := by
  constructor
  · intro it hit
    unfold startKernelOf LR.items at hit
    obtain ⟨p, hp, hfit⟩ := List.mem_map.mp hit
    rw [← hfit]
    exact Nat.zero_le _
  · refine ⟨[], fun _ => rfl, ?_, ?_⟩
    · intro h
      exact absurd h (Nat.lt_irrefl 0)
    · intro it hit
      unfold startKernelOf LR.items at hit
      obtain ⟨p, hp, hfit⟩ := List.mem_map.mp hit
      rw [← hfit]
      exact ⟨Nat.zero_le _, rfl⟩

theorem initial_invB {L : Type} [DecidableEq L] (lr : LR L) :
    LoopInvB (⟨(KernelSet.add_state ⟨[], 0⟩ (startKernelOf lr)).2, [], []⟩ : BuildSt L) := by
  intro i hi
  have hlen : (⟨(KernelSet.add_state (⟨[], 0⟩ : KernelSet L) (startKernelOf lr)).2, [], []⟩
      : BuildSt L).ks.kernels = [startKernelOf lr] := rfl
  rw [hlen] at hi
  simp at hi
  have hi0 : i = 0 := by omega
  subst hi0
  exact kernelPre_start lr

theorem loopStep_invB {L : Type} [DecidableEq L] (lb : LookaheadBuild L) (lr : LR L)
    (hz : EpsZero lb) (st : BuildSt L) (seed : List (Item L)) (ks1 : KernelSet L)
    (hB : LoopInvB st) (hnext : st.ks.next = some (seed, ks1)) :
    LoopInvB (loopStep lb lr seed ks1 st) := by
  obtain ⟨hdlt, hseed, hk1k, hk1d⟩ := next_some st.ks seed ks1 hnext
  obtain ⟨-, -, -, ⟨t, hkext⟩, -, -, -, hnew⟩ :=
    processOne_spec lb lr seed ks1 st.states.length
  have hkstep : (loopStep lb lr seed ks1 st).ks
      = (processOne lb lr seed ks1 st.states.length).2 := rfl
  intro i hi
  rw [hkstep] at hi ⊢
  by_cases hcase : i < st.ks.kernels.length
  · have hgetD : (processOne lb lr seed ks1 st.states.length).2.kernels.getD i []
        = st.ks.kernels.getD i [] := by
      rw [hkext, hk1k, List.getD_append _ _ _ _ hcase]
    rw [hgetD]
    exact hB i hcase
  · push_neg at hcase
    obtain ⟨sym, m, hmem, hget⟩ := hnew i hi (by rw [hk1k]; exact hcase)
    rw [hget]
    have hkp : KernelPre st.ks.dequeued (st.ks.kernels.getD st.ks.dequeued []) :=
      hB st.ks.dequeued hdlt
    rw [← hseed] at hkp
    obtain ⟨π, -, -, hsfx0⟩ := closure_kernelPre lb lr hz st.ks.dequeued seed hkp
    exact kernelPre_of_group (transitive_closure lb lr seed) π sym m i
      (by omega) (transitionsOf_groupOk lb _ (sym, m) hmem) hsfx0

theorem build_loop_invB {L : Type} [DecidableEq L] (lb : LookaheadBuild L) (lr : LR L)
    (budget : Option Nat) (hz : EpsZero lb) :
    ∀ (fuel : Nat) (st st' : BuildSt L), LoopInvB st →
      build_loop lb lr budget fuel st = some st' → LoopInvB st' := by
  intro fuel
  induction fuel with
  | zero =>
    intro st st' hB h
    rw [build_loop] at h
    cases hn : st.ks.next with
    | none =>
      rw [hn] at h
      obtain rfl : st = st' := by injection h
      exact hB
    | some p =>
      rw [hn] at h
      simp at h
  | succ n ih =>
    intro st st' hB h
    rw [build_loop] at h
    cases hn : st.ks.next with
    | none =>
      rw [hn] at h
      obtain rfl : st = st' := by injection h
      exact hB
    | some p =>
      obtain ⟨seed, ks1⟩ := p
      rw [hn] at h
      have h2 : (if (lr.permit_early_stop
            && stop_after budget (loopStep lb lr seed ks1 st).conflicts.length) = true then
          some (loopStep lb lr seed ks1 st)
        else build_loop lb lr budget n (loopStep lb lr seed ks1 st)) = some st' := h
      by_cases hstop : (lr.permit_early_stop
          && stop_after budget (loopStep lb lr seed ks1 st).conflicts.length) = true
      · rw [if_pos hstop] at h2
        obtain rfl : loopStep lb lr seed ks1 st = st' := by injection h2
        exact loopStep_invB lb lr hz st seed ks1 hB hn
      · rw [if_neg hstop] at h2
        exact ih (loopStep lb lr seed ks1 st) st'
          (loopStep_invB lb lr hz st seed ks1 hB hn) h2

theorem build_states_invB {L : Type} [DecidableEq L] (lb : LookaheadBuild L) (lr : LR L)
    (budget : Option Nat) (fuel : Nat) (r : BuildResult L) (hz : EpsZero lb)
    (h : build_states lb lr budget fuel = some r) :
    ∃ st : BuildSt L, LoopInvA lb lr st ∧ LoopInvB st ∧
      (st.ks.next = none ∨ stop_after budget st.conflicts.length = true) ∧
      (∀ sts, r = BuildResult.ok sts → sts = st.states ∧ st.conflicts = []) ∧
      (∀ e, r = BuildResult.err e → e.states = st.states) := by
  unfold build_states at h
  cases hb : build_loop lb lr budget fuel
      ⟨(KernelSet.add_state ⟨[], 0⟩ (startKernelOf lr)).2, [], []⟩ with
  | none =>
    rw [hb] at h
    simp at h
  | some st =>
    rw [hb] at h
    have h2 : (if st.conflicts.isEmpty = true then some (BuildResult.ok st.states)
        else some (BuildResult.err ⟨st.states, st.conflicts⟩)) = some r := h
    obtain ⟨hI, -, hexit⟩ :=
      build_loop_inv lb lr budget fuel _ st (initial_invA lb lr) hb
    have hB : LoopInvB st :=
      build_loop_invB lb lr budget hz fuel _ st (initial_invB lr) hb
    refine ⟨st, hI, hB, hexit, ?_, ?_⟩
    · intro sts hsts
      by_cases hc : st.conflicts.isEmpty = true
      · rw [if_pos hc] at h2
        obtain h3 : BuildResult.ok st.states = r := by injection h2
        rw [← h3] at hsts
        obtain rfl : sts = st.states := by injection hsts with h4; exact h4.symm
        exact ⟨rfl, List.isEmpty_iff.mp hc⟩
      · rw [if_neg hc] at h2
        obtain h3 : BuildResult.err ⟨st.states, st.conflicts⟩ = r := by injection h2
        rw [← h3] at hsts
        cases hsts
    · intro e he
      by_cases hc : st.conflicts.isEmpty = true
      · rw [if_pos hc] at h2
        obtain h3 : BuildResult.ok st.states = r := by injection h2
        rw [← h3] at he
        cases he
      · rw [if_neg hc] at h2
        obtain h3 : BuildResult.err ⟨st.states, st.conflicts⟩ = r := by injection h2
        rw [← h3] at he
        obtain rfl : e = ⟨st.states, st.conflicts⟩ := by injection he with h4; exact h4.symm
        rfl

/-- C8: in a finished automaton every state carries a prefix (its
longest consumed-symbol sequence): every item's consumed symbols are the
suffix of that prefix of length equal to its dot index, state 0's prefix
is empty while every other state's is not, every shift or goto target is
in range with a non-empty prefix (the emitter's transition assertion
`m >= 1`), and every recorded reduction's right-hand side fits inside the
state's prefix (the emitter's reduce assertion `n >= m`). -/
theorem claim_C8 {L : Type} [DecidableEq L] (lb : LookaheadBuild L) (lr : LR L)
    (budget : Option Nat) (fuel : Nat) (sts : List (State L)) (hz : EpsZero lb)
    (h : build_states lb lr budget fuel = some (BuildResult.ok sts)) :
    ∀ s ∈ sts,
      (∀ it ∈ s.items, it.index ≤ (stackSyms s).length ∧
        itemConsumed it = (stackSyms s).drop ((stackSyms s).length - it.index)) ∧
      (s.index = 0 → stackSyms s = []) ∧
      (0 < s.index → stackSyms s ≠ []) ∧
      (∀ pr ∈ s.shifts ++ s.gotos, pr.2 < sts.length ∧
        1 ≤ (stackSyms (sts.getD pr.2 ⟨0, [], [], [], []⟩)).length) ∧
      (∀ red ∈ s.reductions, red.2.symbols.length ≤ (stackSyms s).length) := by
  obtain ⟨st, hI, hB, hexit, hok, -⟩ := build_states_invB lb lr budget fuel _ hz h
  obtain ⟨rfl, hc⟩ := hok sts rfl
  have hfull := ok_all_expanded lb lr budget st hI hc hexit
  obtain ⟨hnd, hdq, hlen, hconf, hstates, htargets, hchar⟩ := hI
  intro s hs
  obtain ⟨⟨i, hi⟩, hgi⟩ := List.mem_iff_get.mp hs
  obtain ⟨hidx, hitems, hred⟩ := hstates i hi
  rw [hgi] at hidx hitems hred
  have hkpi : KernelPre i (st.ks.kernels.getD i []) := hB i (by omega)
  obtain ⟨π2, h02, -, hsfx0⟩ := closure_kernelPre lb lr hz i _ hkpi
  have hsfx : ∀ it ∈ s.items, it.index ≤ π2.length ∧
      itemConsumed it = π2.drop (π2.length - it.index) := by
    rw [hitems]
    exact hsfx0
  obtain ⟨hmain, hlenle, -⟩ := state_suffix_facts s π2 hsfx
  refine ⟨hmain, ?_, ?_, ?_, ?_⟩
  · intro hi0
    have hπ2 : π2 = [] := h02 (by omega)
    rw [hπ2] at hlenle
    have hzero : (stackSyms s).length = 0 := by
      simpa using hlenle
    exact List.eq_nil_of_length_eq_zero hzero
  · intro hipos
    have hipos' : 0 < i := by omega
    obtain ⟨hkne, hkall⟩ := hchar i (by omega) hipos'
    obtain ⟨it0, hit0⟩ := List.exists_mem_of_ne_nil _ hkne
    have hit0s : it0 ∈ s.items := by
      rw [hitems]
      exact tc_seed_subset lb lr _ it0 hit0
    have h1 := (hmain it0 hit0s).1
    have h2 := hkall it0 hit0
    intro hnil
    rw [hnil] at h1
    simp at h1
    omega
  · intro pr hpr
    obtain ⟨hblt, hkne, hkall⟩ := htargets s hs pr hpr
    have hlt : pr.2 < st.states.length := by omega
    refine ⟨hlt, ?_⟩
    have hgetT : st.states.getD pr.2 (⟨0, [], [], [], []⟩ : State L)
        = st.states.get ⟨pr.2, hlt⟩ := by
      rw [List.getD_eq_getElem _ _ hlt]
      rfl
    obtain ⟨-, hitemsT, -⟩ := hstates pr.2 hlt
    have hkpT : KernelPre pr.2 (st.ks.kernels.getD pr.2 []) := hB pr.2 hblt
    obtain ⟨πT, -, -, hsfxT0⟩ := closure_kernelPre lb lr hz pr.2 _ hkpT
    have hsfxT : ∀ it ∈ (st.states.get ⟨pr.2, hlt⟩).items, it.index ≤ πT.length ∧
        itemConsumed it = πT.drop (πT.length - it.index) := by
      rw [hitemsT]
      exact hsfxT0
    obtain ⟨hmainT, -, -⟩ := state_suffix_facts (st.states.get ⟨pr.2, hlt⟩) πT hsfxT
    obtain ⟨it0, hit0⟩ := List.exists_mem_of_ne_nil _ hkne
    have hit0T : it0 ∈ (st.states.get ⟨pr.2, hlt⟩).items := by
      rw [hitemsT]
      exact tc_seed_subset lb lr _ it0 hit0
    have h1 := (hmainT it0 hit0T).1
    have h2 := hkall it0 hit0
    rw [hgetT]
    omega
  · intro red hredmem
    rw [hred] at hredmem
    obtain ⟨it, hitmem, hfeq⟩ := List.mem_map.mp hredmem
    obtain ⟨hitem2, hcanred⟩ := List.mem_filter.mp hitmem
    have h1 := (hmain it hitem2).1
    have hcr : it.index = it.production.symbols.length := by
      have h3 : (it.index == it.production.symbols.length) = true := hcanred
      exact beq_iff_eq.mp h3
    rw [← hfeq]
    show it.production.symbols.length ≤ (stackSyms s).length
    omega

/-- Witness for C8: the single state of the empty grammar's automaton. -/
theorem claim_C8_witness :
    (∀ it ∈ (⟨0, [], [], [], []⟩ : State Nil).items,
      it.index ≤ (stackSyms (⟨0, [], [], [], []⟩ : State Nil)).length ∧
      itemConsumed it = (stackSyms (⟨0, [], [], [], []⟩ : State Nil)).drop
        ((stackSyms (⟨0, [], [], [], []⟩ : State Nil)).length - it.index)) ∧
    ((⟨0, [], [], [], []⟩ : State Nil).index = 0 →
      stackSyms (⟨0, [], [], [], []⟩ : State Nil) = []) ∧
    (0 < (⟨0, [], [], [], []⟩ : State Nil).index →
      stackSyms (⟨0, [], [], [], []⟩ : State Nil) ≠ []) ∧
    (∀ pr ∈ (⟨0, [], [], [], []⟩ : State Nil).shifts
        ++ (⟨0, [], [], [], []⟩ : State Nil).gotos,
      pr.2 < [(⟨0, [], [], [], []⟩ : State Nil)].length ∧
      1 ≤ (stackSyms ([(⟨0, [], [], [], []⟩ : State Nil)].getD pr.2
        ⟨0, [], [], [], []⟩)).length) ∧
    (∀ red ∈ (⟨0, [], [], [], []⟩ : State Nil).reductions,
      red.2.symbols.length ≤ (stackSyms (⟨0, [], [], [], []⟩ : State Nil)).length) :=
  claim_C8 nilLB (LR.new ⟨[]⟩ 0 Nil.mk) none 5 [⟨0, [], [], [], []⟩] epsZero_nil (by decide)
    ⟨0, [], [], [], []⟩ (List.mem_cons_self _ _)

end LrBuild
